import Mathlib

/-!
Verification of the cdistance engine (pyFileFixity, lib/distance/cdistance):
shallow embedding of levenshtein.c, fastcomp.c, hamming.c, lcsubstrings.c and
the wrapper logic of distance.c, together with proofs about the embedded code.

Machine integers (Py_ssize_t) are modeled by Nat/Int: lengths and DP cells are
Nat, sentinel-carrying results are Int (-1 ExceedsBound, -2 and -3 error codes as
in the C sources). Doubles returned by the normalized routines are modeled by
Rat: the values appearing there are ratios of small machine integers, and the
properties proved (membership in [0,1], equality with 0 or 1) are preserved by
exact rational arithmetic.
-/

namespace CDistance

variable {α : Type} [DecidableEq α]

/-- MIN3 macro of levenshtein.c: minimum of three values. -/
def min3 (a b c : Nat) : Nat := min a (min b c)

/-- MAX3 macro of levenshtein.c: maximum of three values. -/
def max3 (a b c : Nat) : Nat := max a (max b c)

/-- Helper for `lev`: `levA f x ys` is the distance from `x :: xs` to `ys`
where `f` computes the distance from `xs`; this shape makes the classic
recurrence structurally recursive. -/
def levA (f : List α → Nat) (x : α) : List α → Nat
  | [] => f [] + 1
  | y :: ys => min3 (f (y :: ys) + 1) (levA f x ys + 1) (f ys + (if x = y then 0 else 1))

/-- Specification-side Levenshtein distance (spec glossary: minimum number of
single-element insert/delete/substitute operations), stated by the standard
recurrence. The embedded C routines are compared against this reference. -/
def lev : List α → List α → Nat
  | [], ys => ys.length
  | x :: xs, ys => levA (lev xs) x ys

/-! ## levenshtein.c : the capped raw engine

`minimum(column, len)` scans the DP row; due to the `len-- >= 0` loop
condition it also reads `column[-1]`, one cell before the buffer (claim C10).
In the row functions below the value read out of bounds is the parameter `g`;
the scan computes the minimum of the row entries and `g`. -/

/-- One in-bounds read of `column[i]` for a signed index `i`; `none` when the
index is outside `[0, len)`. -/
def intGet (l : List Nat) (i : Int) : Option Nat :=
  if 0 ≤ i then l.get? i.toNat else none

/-- The `minimum` function of levenshtein.c, with every array read performed
through `intGet`: `min = column[--len]; while (len-- >= 0) ...` reads indices
`len-1, len-2, ..., 0, -1` in that order; the final read is out of bounds, so
a total embedding returns `none`. -/
def minimum (column : List Nat) : Option Int :=
  (intGet column ((column.length : Int) - 1)).bind (fun m0 =>
    ((List.range column.length).reverse.map (fun t : Nat => (t : Int) - 1)).foldlM
      (fun m i => (intGet column i).map (fun a => min m (a : Int))) (m0 : Int))

/-- Minimum over the row entries together with the out-of-bounds value `g`
read by `minimum` at `column[-1]` (its concrete content is unspecified). -/
def minScan (g : Int) (row : List Nat) : Int :=
  row.foldr (fun a m => min (a : Int) m) g

/-- Inner j-loop of `levenshtein` for one row: `left` is the freshly written
`column[j-1]`, `diag` is `last` (the old `column[j-1]`), `p :: ps` are the old
entries `column[j], column[j+1], ...`, and `y :: ys` the remaining elements of
`seq2`. `column[j] = MIN3(column[j] + 1, column[j-1] + 1, last + cost)`. -/
def levRowFrom (x : α) : Nat → Nat → List α → List Nat → List Nat
  | left, diag, y :: ys, p :: ps =>
    let c := min3 (p + 1) (left + 1) (diag + (if x = y then 0 else 1))
    c :: levRowFrom x c p ys ps
  | _, _, _, _ => []

/-- One full row update: the previous row starts with `column[0] = i - 1`, the
new row starts with `column[0] = i`, and `last` starts at `i - 1`. -/
def levRowC (x : α) (ys : List α) (prev : List Nat) : List Nat :=
  match prev with
  | [] => []
  | d :: ps => (d + 1) :: levRowFrom x (d + 1) d ys ps

/-- Outer i-loop of `levenshtein`: one row per element of the first sequence;
after each row, if `max_dist >= 0` and the row minimum (including the
out-of-bounds read `g`) exceeds `max_dist`, return -1; after the loop return
`column[len2]` checked against `max_dist`. -/
def levLoopC (w : List α) (k g : Int) : List α → List Nat → Int
  | [], row =>
    if 0 ≤ k ∧ k < ((row.getLastD 0 : Nat) : Int) then -1 else ((row.getLastD 0 : Nat) : Int)
  | x :: xs, row =>
    let row' := levRowC x w row
    if 0 ≤ k ∧ k < minScan g row' then -1 else levLoopC w k g xs row'

/-- `levenshtein(seq1, seq2, len1, len2, max_dist)` of levenshtein.c:
swap so the first operand is not shorter, short-circuit to -1 when the length
gap alone exceeds a non-negative `max_dist`, handle empty operands, then run
the single-row DP. `g` is the unspecified value that the row-minimum scan
reads one cell before the buffer. -/
def levenshtein (s1 s2 : List α) (k g : Int) : Int :=
  let a := if s1.length < s2.length then s2 else s1
  let b := if s1.length < s2.length then s1 else s2
  if 0 ≤ k ∧ k < (a.length : Int) - (b.length : Int) then -1
  else if a.length = 0 then (b.length : Int)
  else if b.length = 0 then (a.length : Int)
  else levLoopC b k g a (List.range (b.length + 1))

/-! Closed forms used in the proofs: the row produced after consuming the
prefix `u` of the first sequence holds the distances from `u` to the prefixes
of the second sequence. -/

/-- Distances from `u` to the proper extensions of `v` by prefixes of `ys`:
`rowTail u v ys = [lev u (v ++ [y1]), lev u (v ++ [y1, y2]), ...]`. -/
def rowTail (u v : List α) : List α → List Nat
  | [] => []
  | y :: ys => lev u (v ++ [y]) :: rowTail u (v ++ [y]) ys

/-- The full DP row for consumed prefix `u`: `[lev u [], lev u w₁, ...]`. -/
def rowOf (u w : List α) : List Nat := u.length :: rowTail u [] w

/-! ## levenshtein.c : nlevenshtein, method 2 parallel DP -/

/-- Inner j-loop of `nlevenshtein` (method 2): cells are (distance, length)
pairs; `ic/dc/rc` are the three cost candidates, the length cell is the MAX3
of the alignment lengths of the candidates whose cost attains the chosen
minimum, others contributing 0. -/
def nlevRowFrom (x : α) : (Nat × Nat) → (Nat × Nat) → List α → List (Nat × Nat) → List (Nat × Nat)
  | (left, lleft), (diag, ldiag), y :: ys, (p, lp) :: ps =>
    let ic := left + 1
    let dc := p + 1
    let rc := diag + (if x = y then 0 else 1)
    let m := min3 ic dc rc
    let lic := if ic = m then lleft + 1 else 0
    let ldc := if dc = m then lp + 1 else 0
    let lrc := if rc = m then ldiag + 1 else 0
    (m, max3 lic ldc lrc) :: nlevRowFrom x (m, max3 lic ldc lrc) (p, lp) ys ps
  | _, _, _, _ => []

/-- One full method-2 row update: `column[0] = length[0] = i` where
`i = column[0] + 1` of the previous row, and `last = llast = i - 1`. -/
def nlevRowC (x : α) (ys : List α) (prev : List (Nat × Nat)) : List (Nat × Nat) :=
  match prev with
  | [] => []
  | (d, ld) :: ps => (d + 1, d + 1) :: nlevRowFrom x (d + 1, d + 1) (d, ld) ys ps

/-- Outer i-loop of `nlevenshtein` method 2. -/
def nlevLoopC (w : List α) : List α → List (Nat × Nat) → List (Nat × Nat)
  | [], row => row
  | x :: xs, row => nlevLoopC w xs (nlevRowC x w row)

/-- `nlevenshtein(seq1, seq2, len1, len2, method)` of levenshtein.c. The
caller guarantees `len1 >= len2` (assert in the C source). Method 1 delegates
to the raw engine with `max_dist = -1` (so the minimum scan never runs and
its out-of-bounds value is irrelevant; 0 is passed for it); any negative code
from the raw engine is returned unchanged. Method 2 runs the parallel DP and
returns `column[len2] / length[len2]`. -/
def nlevenshtein (a b : List α) (method : Nat) : Rat :=
  if a.length = 0 then 0
  else if b.length = 0 then 1
  else if method = 1 then
    let f := levenshtein a b (-1) 0
    if f < 0 then (f : Rat) else (f : Rat) / (a.length : Rat)
  else
    let row := nlevLoopC b a ((List.range (b.length + 1)).map (fun j => (j, j)))
    let p := row.getLastD (0, 0)
    (p.1 : Rat) / (p.2 : Rat)

/-- The `nlevenshtein` wrapper `nlevenshtein_py` of distance.c swaps the
operands so the first is not shorter before calling the engine. -/
def nlevenshteinPy (s1 s2 : List α) (method : Nat) : Rat :=
  if s1.length < s2.length then nlevenshtein s2 s1 method
  else nlevenshtein s1 s2 method

/-! ## hamming.c and its wrapper -/

/-- `hamming(seq1, seq2, len)` of hamming.c: count of positions where the
elements differ (sequences of the same length, walked in lockstep). -/
def hamming : List α → List α → Nat
  | x :: xs, y :: ys => (if x = y then 0 else 1) + hamming xs ys
  | _, _ => 0

/-- `hamming_py` of distance.c, raw result: `none` models the ValueError
raised when the lengths differ (LengthMismatch). -/
def hammingPy (s1 s2 : List α) : Option Nat :=
  if s1.length ≠ s2.length then none else some (hamming s1 s2)

/-- `hamming_py` of distance.c with `normalized=True`: length 0 yields 0.0,
otherwise `dist / len`. -/
def hammingNormPy (s1 s2 : List α) : Option Rat :=
  if s1.length ≠ s2.length then none
  else if s1.length = 0 then some 0
  else some ((hamming s1 s2 : Rat) / (s1.length : Rat))

/-! ## fastcomp.c -/

/-- Edit operations appearing in the fastcomp models: the characters
'd' (delete, advances seq1), 'i' (insert, advances seq2), 'r' (replace,
advances both). -/
inductive EOp : Type
  | del : EOp
  | ins : EOp
  | rep : EOp
deriving DecidableEq

/-- A model is a two-character script; `models[m][c-1]` for the c-th mismatch
(c = 1 or 2). -/
def opAt2 (m : EOp × EOp) (c : Nat) : EOp := if c = 1 then m.1 else m.2

/-- `(models[m][0] == 'd') + (models[m][1] == 'd')`. -/
def dOps (m : EOp × EOp) : Nat :=
  (if m.1 = EOp.del then 1 else 0) + (if m.2 = EOp.del then 1 else 0)

/-- `models[m][c] == 'i'` for c = 0, 1, 2; at c = 2 the read hits the string
terminator of the two-character literal, which is never 'i'. -/
def insAt (m : EOp × EOp) (c : Nat) : Bool :=
  if c = 0 then m.1 = EOp.ins else if c = 1 then m.2 = EOp.ins else false

/-- The main while-loop of `fastcomp`: walk both sequences in lockstep; on a
mismatch increment the counter, break when it passes 2, otherwise (optionally)
take the transposition shortcut, else apply the scripted operation for this
mismatch. `ld2` records `ldiff == 2` (transpositions are disabled then).
`fuel` bounds the iteration count; callers pass `len1 + len2`, which the loop
never exhausts since every iteration consumes at least one element. -/
def walkF (t : Bool) (ld2 : Bool) (m : EOp × EOp) : Nat → List α → List α → Nat → (List α × List α × Nat)
  | 0, s1, s2, c => (s1, s2, c)
  | _ + 1, [], s2, c => ([], s2, c)
  | _ + 1, x :: s1, [], c => (x :: s1, [], c)
  | fuel + 1, x :: s1, y :: s2, c =>
    if x = y then walkF t ld2 m fuel s1 s2 c
    else if 2 < c + 1 then (x :: s1, y :: s2, c + 1)
    else
      match s1, s2 with
      | x' :: s1', y' :: s2' =>
        if t ∧ ¬ld2 ∧ x' = y ∧ x = y' then walkF t ld2 m fuel s1' s2' (c + 1)
        else
          match opAt2 m (c + 1) with
          | EOp.del => walkF t ld2 m fuel (x' :: s1') (y :: y' :: s2') (c + 1)
          | EOp.ins => walkF t ld2 m fuel (x :: x' :: s1') (y' :: s2') (c + 1)
          | EOp.rep => walkF t ld2 m fuel (x' :: s1') (y' :: s2') (c + 1)
      | _, _ =>
        match opAt2 m (c + 1) with
        | EOp.del => walkF t ld2 m fuel s1 (y :: s2) (c + 1)
        | EOp.ins => walkF t ld2 m fuel (x :: s1) s2 (c + 1)
        | EOp.rep => walkF t ld2 m fuel s1 s2 (c + 1)

/-- Post-walk accounting of `fastcomp`: reject when more than two mismatches
occurred; charge a remaining suffix of seq1 against the scripted deletions and
a remaining suffix of seq2 against a scripted insertion at position `c`. -/
def shapeTotal (m : EOp × EOp) : List α × List α × Nat → Option Nat
  | (s1, s2, c) =>
    if 2 < c then none
    else if s1 ≠ [] then
      let cnt := if c = 1 then (if m.2 = EOp.del then 1 else 0) else dOps m
      if s1.length ≤ cnt then some (c + s1.length) else none
    else if s2 ≠ [] then
      if s2.length ≤ (if insAt m c then 1 else 0) then some (c + s2.length) else none
    else some c

/-- Run one model: walk then account. -/
def runShape (t ld2 : Bool) (m : EOp × EOp) (a b : List α) : Option Nat :=
  shapeTotal m (walkF t ld2 m (a.length + b.length) a b 0)

/-- The model catalogue per length difference, in the order the C loop tries
them (m from high index to 0): ldiff 0: "id", "di", "rr"; ldiff 1: "dr",
"rd"; ldiff 2: "dd". -/
def shapesFor : Nat → List (EOp × EOp)
  | 0 => [(EOp.ins, EOp.del), (EOp.del, EOp.ins), (EOp.rep, EOp.rep)]
  | 1 => [(EOp.del, EOp.rep), (EOp.rep, EOp.del)]
  | 2 => [(EOp.del, EOp.del)]
  | _ => []

/-- The `for (; m >= 0; m--)` loop of fastcomp.c: run each model and keep the
least completed mismatch count, starting from `res = 3`. -/
def foldShapes (t ld2 : Bool) (a b : List α) (mos : List (EOp × EOp)) : Nat :=
  mos.foldl
    (fun r mo =>
      match runShape t ld2 mo a b with
      | some c => if c < r then c else r
      | none => r) 3

/-- `fastcomp(seq1, seq2, len1, len2, transpositions)` of fastcomp.c: swap so
the first operand is not shorter, reject a length gap above 2 immediately,
otherwise take the least mismatch count over the models that complete
(res starts at 3; 3 at the end means "greater", returned as -1). -/
def fastcomp (t : Bool) (s1 s2 : List α) : Int :=
  let a := if s1.length < s2.length then s2 else s1
  let b := if s1.length < s2.length then s1 else s2
  let ld := a.length - b.length
  if 2 < ld then -1
  else
    let res := foldShapes t (decide (ld = 2)) a b (shapesFor ld)
    if res = 3 then -1 else (res : Int)

/-- Signed effect of one edit operation on len(seq1) - len(seq2): a deletion
consumes one element of seq1, an insertion one of seq2, a replacement one of
each. -/
def opDelta : EOp → Int
  | EOp.del => 1
  | EOp.ins => -1
  | EOp.rep => 0

/-- Specification-side marker for the fastcomp analysis: some optimal edit
script for the pair starts, at the first divergence, with the operation `o`.
Stated through the one-step recurrence of `lev`: after stripping the common
prefix, performing `o` at the divergence costs exactly one. -/
def firstOp (o : EOp) : List α → List α → Prop
  | x :: s1, y :: s2 =>
    if x = y then firstOp o s1 s2
    else
      match o with
      | EOp.del => lev s1 (y :: s2) + 1 = lev (x :: s1) (y :: s2)
      | EOp.ins => lev (x :: s1) s2 + 1 = lev (x :: s1) (y :: s2)
      | EOp.rep => lev s1 s2 + 1 = lev (x :: s1) (y :: s2)
  | _ :: _, [] => o = EOp.del
  | [], _ :: _ => o = EOp.ins
  | [], [] => False

/-! ## lcsubstrings.c -/

/-- Tie-set update of lcsubstrings.c for a match cell of value `cell` at
position (i, j): a strictly larger run clears the stack and reseeds it, a tie
is appended, anything smaller leaves the state unchanged. -/
def lcsUpd (i j cell : Nat) (ms : Int × List (Nat × Nat)) : Int × List (Nat × Nat) :=
  if ms.1 < (cell : Int) then ((cell : Int), [(i, j)])
  else if (cell : Int) = ms.1 then (ms.1, ms.2 ++ [(i, j)])
  else ms

/-- Inner j-loop of `lcsubstrings` for the row of element `x` at index `i`:
`old :: cs` are the old column entries from index `j` on, `last` the saved
diagonal; on a match the cell is 1 at a boundary and `last + 1` otherwise,
and the tie state is updated; on a mismatch the cell is 0. Returns the new
column segment, the final `last`, and the tie state. -/
def lcsRowC (x : α) (i : Nat) : Nat → List α → List Nat → Nat → (Int × List (Nat × Nat)) → (List Nat × Nat × (Int × List (Nat × Nat)))
  | j, y :: ys, old :: cs, last, ms =>
    if x = y then
      let cell := if i = 0 ∨ j = 0 then 1 else last + 1
      let r := lcsRowC x i (j + 1) ys cs old (lcsUpd i j cell ms)
      (cell :: r.1, r.2)
    else
      let r := lcsRowC x i (j + 1) ys cs old ms
      (0 :: r.1, r.2)
  | _, _, cs, last, ms => (cs, last, ms)

/-- Outer i-loop of `lcsubstrings`. -/
def lcsOuterC (b : List α) : Nat → List α → List Nat → Nat → (Int × List (Nat × Nat)) → (Int × List (Nat × Nat))
  | _, [], _, _, ms => ms
  | i, x :: xs, col, last, ms =>
    let r := lcsRowC x i 0 b col last ms
    lcsOuterC b (i + 1) xs r.1 r.2.1 r.2.2

/-- `lcsubstrings(seq1, seq2, len1, len2, &max_len)` of lcsubstrings.c: the
caller guarantees `len1 >= len2` (assert in the C source). When the shorter
sequence is empty the result is (0, []); otherwise the column starts as
`column[j] = j`, `last = 0`, `mlen = -1`, and the double loop runs. The first
component is the value stored in `*max_len` (it stays -1 when no match cell
is ever seen), the second the stack of (end-in-seq1, end-in-seq2) pairs. -/
def lcsubstrings (a b : List α) : Int × List (Nat × Nat) :=
  if b.length = 0 then (0, [])
  else lcsOuterC b 0 a (List.range b.length) 0 (-1, [])

/-- `lcsubstrings_py` of distance.c with `positions=True`: swap the operands
so the first is not shorter, run the engine, then emit
`(mlen, [(i - mlen + 1, j - mlen + 1), ...])` (lcsubstrings_py_make_tuple);
the positions are NOT translated back through the swap. -/
def lcsubstringsPy (s1 s2 : List α) : Int × List (Int × Int) :=
  let a := if s1.length < s2.length then s2 else s1
  let b := if s1.length < s2.length then s1 else s2
  let r := lcsubstrings a b
  (r.1, r.2.map (fun p => ((p.1 : Int) - r.1 + 1, (p.2 : Int) - r.1 + 1)))

/-! Specification-side notions for the LCS claims. -/

/-- Length of the longest common prefix of two lists. -/
def cpl : List α → List α → Nat
  | x :: u, y :: v => if x = y then cpl u v + 1 else 0
  | _, _ => 0

/-- Length of the longest common suffix of two lists. -/
def csuf (u v : List α) : Nat := cpl u.reverse v.reverse

/-- Length of the longest run of equal elements ending at positions
(p.1 in a, p.2 in b): the longest common suffix of the prefixes of length
`p.1 + 1` and `p.2 + 1`. -/
def runEndF (a b : List α) (p : Nat × Nat) : Nat :=
  csuf (a.take (p.1 + 1)) (b.take (p.2 + 1))

/-- `l` is the length of some common contiguous substring of `a` and `b`. -/
def IsCommonSub (a b : List α) (l : Nat) : Prop :=
  ∃ s1 s2, s1 + l ≤ a.length ∧ s2 + l ≤ b.length ∧
    (a.drop s1).take l = (b.drop s2).take l

/-- The cell positions of the lcsubstrings double loop, in scan order. -/
def cellsRM (n m : Nat) : List (Nat × Nat) :=
  (List.range n).flatMap (fun i => (List.range m).map (fun j => (i, j)))

/-- The cell positions of the last `k` rows of the lcsubstrings double loop
(row width `m`, first remaining row index `i`), in scan order. -/
def cellsFrom (m : Nat) : Nat → Nat → List (Nat × Nat)
  | _, 0 => []
  | i, k + 1 => (List.range m).map (fun j => (i, j)) ++ cellsFrom m (i + 1) k

/-- The tie-state fold over a list of cells with run-length function `f`:
mismatch cells (f = 0) are skipped, match cells go through `lcsUpd`. -/
def lcsFold (f : Nat × Nat → Nat) (L : List (Nat × Nat)) (ms : Int × List (Nat × Nat)) : Int × List (Nat × Nat) :=
  L.foldl (fun s p => if f p = 0 then s else lcsUpd p.1 p.2 (f p) s) ms

/-- Maximum of `f` over the match cells of `L`, -1 when there is none. -/
def maxCell (f : Nat × Nat → Nat) (L : List (Nat × Nat)) : Int :=
  L.foldl (fun m p => if f p = 0 then m else max m ((f p : Nat) : Int)) (-1)

/-- One step of the running maximum kept by the lcsubstrings tie state:
mismatch cells (f = 0) leave the accumulator unchanged. -/
def maxStep (f : Nat × Nat → Nat) (acc : Int) (p : Nat × Nat) : Int :=
  if f p = 0 then acc else max acc ((f p : Nat) : Int)

/-- Running maximum of `f` over the match cells of `L`, starting from `m`. -/
def maxFrom (f : Nat × Nat → Nat) (L : List (Nat × Nat)) (m : Int) : Int :=
  L.foldl (maxStep f) m

/-- Row values appearing in the lcsubstrings column: the common-suffix
lengths of `u` against the extensions of `v` by successive elements of the
third argument. -/
def runRow (u v : List α) : List α → List Nat
  | [] => []
  | y :: ys => csuf u (v ++ [y]) :: runRow u (v ++ [y]) ys

/-! ## Streaming comparators (distance.c, ilevenshtein_next / ifastcomp_next)

The candidate stream is modeled by a list; one call of the C `next` function
consumes candidates until one passes the filter and yields it, so consuming
the whole stream produces the filtered list below. The element kinds used
here have an infallible equality, so the error branches of the C code do not
arise. -/

/-- All pairs produced by `ilevenshtein` over a finite candidate stream:
candidates whose capped distance is the -1 sentinel are skipped. -/
def ilevenshteinAll (ref : List α) (k g : Int) : List (List α) → List (Int × List α)
  | [] => []
  | c :: cs =>
    let d := levenshtein ref c k g
    if d ≠ -1 then (d, c) :: ilevenshteinAll ref k g cs
    else ilevenshteinAll ref k g cs

/-- All pairs produced by `ifast_comp` over a finite candidate stream:
candidates whose fastcomp result is the -1 sentinel are skipped. -/
def ifastcompAll (t : Bool) (ref : List α) : List (List α) → List (Int × List α)
  | [] => []
  | c :: cs =>
    let d := fastcomp t ref c
    if d ≠ -1 then (d, c) :: ifastcompAll t ref cs
    else ifastcompAll t ref cs

/-! ## Fallible-oracle / allocation-aware variants (claim C6)

For the generic element kind the equality oracle may fail (`none`); scratch
allocation may fail. The C sentinels are kept verbatim: levenshtein returns
-2 for a failed allocation and -3 for a failed comparison; nlevenshtein
returns -1 for a failed allocation and -2 for a failed comparison, except
that method 1 passes the raw engine codes through unchanged. -/

/-- Fallible inner j-loop of `levenshtein`. -/
def levRowFromE (cmp : α → α → Option Bool) (x : α) : Nat → Nat → List α → List Nat → Option (List Nat)
  | left, diag, y :: ys, p :: ps =>
    match cmp x y with
    | none => none
    | some e =>
      let c := min3 (p + 1) (left + 1) (diag + (if e then 0 else 1))
      (levRowFromE cmp x c p ys ps).map (fun r => c :: r)
  | _, _, _, _ => some []

/-- Fallible full row update of `levenshtein`. -/
def levRowE (cmp : α → α → Option Bool) (x : α) (ys : List α) (prev : List Nat) : Option (List Nat) :=
  match prev with
  | [] => some []
  | d :: ps => (levRowFromE cmp x (d + 1) d ys ps).map (fun r => (d + 1) :: r)

/-- Fallible outer i-loop of `levenshtein`: a failed comparison frees the
column and returns -3. -/
def levLoopE (cmp : α → α → Option Bool) (w : List α) (k g : Int) : List α → List Nat → Int
  | [], row =>
    if 0 ≤ k ∧ k < ((row.getLastD 0 : Nat) : Int) then -1 else ((row.getLastD 0 : Nat) : Int)
  | x :: xs, row =>
    match levRowE cmp x w row with
    | none => -3
    | some row' =>
      if 0 ≤ k ∧ k < minScan g row' then -1 else levLoopE cmp w k g xs row'

/-- Fallible / allocation-aware `levenshtein`: a failed column allocation
returns -2 before the DP. -/
def levenshteinE (cmp : α → α → Option Bool) (alloc : Bool) (s1 s2 : List α) (k g : Int) : Int :=
  let a := if s1.length < s2.length then s2 else s1
  let b := if s1.length < s2.length then s1 else s2
  if 0 ≤ k ∧ k < (a.length : Int) - (b.length : Int) then -1
  else if a.length = 0 then (b.length : Int)
  else if b.length = 0 then (a.length : Int)
  else if alloc = false then -2
  else levLoopE cmp b k g a (List.range (b.length + 1))

/-- Fallible inner j-loop of `nlevenshtein` method 2. -/
def nlevRowFromE (cmp : α → α → Option Bool) (x : α) : (Nat × Nat) → (Nat × Nat) → List α → List (Nat × Nat) → Option (List (Nat × Nat))
  | (left, lleft), (diag, ldiag), y :: ys, (p, lp) :: ps =>
    match cmp x y with
    | none => none
    | some e =>
      let ic := left + 1
      let dc := p + 1
      let rc := diag + (if e then 0 else 1)
      let m := min3 ic dc rc
      let lic := if ic = m then lleft + 1 else 0
      let ldc := if dc = m then lp + 1 else 0
      let lrc := if rc = m then ldiag + 1 else 0
      (nlevRowFromE cmp x (m, max3 lic ldc lrc) (p, lp) ys ps).map
        (fun r => (m, max3 lic ldc lrc) :: r)
  | _, _, _, _ => some []

/-- Fallible full method-2 row update. -/
def nlevRowE (cmp : α → α → Option Bool) (x : α) (ys : List α) (prev : List (Nat × Nat)) : Option (List (Nat × Nat)) :=
  match prev with
  | [] => some []
  | (d, _) :: ps => (nlevRowFromE cmp x (d + 1, d + 1) (d, d) ys ps).map (fun r => (d + 1, d + 1) :: r)

/-- Fallible outer i-loop of `nlevenshtein` method 2; `none` on a failed
comparison. -/
def nlevLoopE (cmp : α → α → Option Bool) (w : List α) : List α → List (Nat × Nat) → Option (List (Nat × Nat))
  | [], row => some row
  | x :: xs, row =>
    match nlevRowE cmp x w row with
    | none => none
    | some row' => nlevLoopE cmp w xs row'

/-- Fallible / allocation-aware `nlevenshtein` (precondition len1 >= len2):
method 1 returns the raw engine code unchanged when it is negative; method 2
returns -1 when either of its two allocations fails and -2 when a comparison
fails. -/
def nlevenshteinE (cmp : α → α → Option Bool) (allocC allocL : Bool) (a b : List α) (method : Nat) : Rat :=
  if a.length = 0 then 0
  else if b.length = 0 then 1
  else if method = 1 then
    let f := levenshteinE cmp allocC a b (-1) 0
    if f < 0 then (f : Rat) else (f : Rat) / (a.length : Rat)
  else if allocC = false then -1
  else if allocL = false then -1
  else
    match nlevLoopE cmp b a ((List.range (b.length + 1)).map (fun j => (j, j))) with
    | none => -2
    | some row =>
      let p := row.getLastD (0, 0)
      (p.1 : Rat) / (p.2 : Rat)

/-- Outcome of a wrapper call as seen by the Python caller: a value, a
MemoryError raised via PyErr_NoMemory, or NULL with the already-set
(comparison) exception propagated. -/
inductive PyOutcome : Type
  | val : Rat → PyOutcome
  | memoryError : PyOutcome
  | otherError : PyOutcome
deriving DecidableEq

/-- Error mapping of `levenshtein_py` (distance.c): `dist < -1` is an error;
-2 becomes PyErr_NoMemory, anything else (-3) propagates the comparison
failure. -/
def levenshteinPyE (cmp : α → α → Option Bool) (alloc : Bool) (s1 s2 : List α) (k g : Int) : PyOutcome :=
  let d := levenshteinE cmp alloc s1 s2 k g
  if d < -1 then (if d = -2 then PyOutcome.memoryError else PyOutcome.otherError)
  else PyOutcome.val (d : Rat)

/-- Error mapping of `nlevenshtein_py` (distance.c): the wrapper swaps the
operands, and for `dist < 0` maps -1 to PyErr_NoMemory and anything else to
the propagated comparison failure. -/
def nlevenshteinPyE (cmp : α → α → Option Bool) (allocC allocL : Bool) (s1 s2 : List α) (method : Nat) : PyOutcome :=
  let a := if s1.length < s2.length then s2 else s1
  let b := if s1.length < s2.length then s1 else s2
  let d := nlevenshteinE cmp allocC allocL a b method
  if d < 0 then (if d = -1 then PyOutcome.memoryError else PyOutcome.otherError)
  else PyOutcome.val d

end CDistance

namespace CDistance

variable {α : Type} [DecidableEq α]

theorem lev_nil_left (ys : List α) : lev [] ys = ys.length := rfl

theorem lev_cons_cons (x y : α) (xs ys : List α) :
    lev (x :: xs) (y :: ys) =
      min3 (lev xs (y :: ys) + 1) (lev (x :: xs) ys + 1)
        (lev xs ys + (if x = y then 0 else 1)) := rfl

theorem lev_cons_nil (x : α) (xs : List α) : lev (x :: xs) [] = lev xs [] + 1 := rfl

theorem lev_nil_right : ∀ xs : List α, lev xs [] = xs.length
  | [] => rfl
  | x :: xs => by rw [lev_cons_nil, lev_nil_right xs]; rfl

theorem min3_cases (a b c : Nat) : min3 a b c = a ∨ min3 a b c = b ∨ min3 a b c = c := by
  unfold min3; omega

theorem min3_le₁ (a b c : Nat) : min3 a b c ≤ a := by unfold min3; omega

theorem min3_le₂ (a b c : Nat) : min3 a b c ≤ b := by unfold min3; omega

theorem min3_le₃ (a b c : Nat) : min3 a b c ≤ c := by unfold min3; omega

theorem le_min3 {a b c d : Nat} (h1 : d ≤ a) (h2 : d ≤ b) (h3 : d ≤ c) : d ≤ min3 a b c := by
  unfold min3; omega

theorem max3_ge₁ (a b c : Nat) : a ≤ max3 a b c := by unfold max3; omega

theorem max3_ge₂ (a b c : Nat) : b ≤ max3 a b c := by unfold max3; omega

theorem max3_ge₃ (a b c : Nat) : c ≤ max3 a b c := by unfold max3; omega

theorem cost_le_one (x y : α) : (if x = y then 0 else 1) ≤ 1 := by
  by_cases h : x = y <;> simp [h]

theorem lev_len_le (xs : List α) : ∀ ys : List α, xs.length ≤ lev xs ys + ys.length := by
  induction xs with
  | nil => intro ys; simp [lev_nil_left]
  | cons x xs ih =>
    intro ys
    induction ys with
    | nil => rw [lev_nil_right]; simp
    | cons y ys ihy =>
      rw [lev_cons_cons]
      have h1 := ih (y :: ys)
      have h3 := ih ys
      rcases min3_cases (lev xs (y :: ys) + 1) (lev (x :: xs) ys + 1)
        (lev xs ys + (if x = y then 0 else 1)) with h | h | h <;> rw [h] <;>
        simp only [List.length_cons] at * <;> omega

theorem lev_len_le₂ (xs : List α) : ∀ ys : List α, ys.length ≤ lev xs ys + xs.length := by
  induction xs with
  | nil => intro ys; simp [lev_nil_left]
  | cons x xs ih =>
    intro ys
    induction ys with
    | nil => rw [lev_nil_right]; simp
    | cons y ys ihy =>
      rw [lev_cons_cons]
      have h1 := ih (y :: ys)
      have h3 := ih ys
      rcases min3_cases (lev xs (y :: ys) + 1) (lev (x :: xs) ys + 1)
        (lev xs ys + (if x = y then 0 else 1)) with h | h | h <;> rw [h] <;>
        simp only [List.length_cons] at * <;> omega

theorem lev_le_max (xs : List α) : ∀ ys : List α, lev xs ys ≤ max xs.length ys.length := by
  induction xs with
  | nil => intro ys; simp [lev_nil_left]
  | cons x xs ih =>
    intro ys
    cases ys with
    | nil => rw [lev_nil_right]; simp
    | cons y ys =>
      rw [lev_cons_cons]
      have h3 := ih ys
      have hc := cost_le_one (α := α) x y
      have := min3_le₃ (lev xs (y :: ys) + 1) (lev (x :: xs) ys + 1)
        (lev xs ys + (if x = y then 0 else 1))
      simp only [List.length_cons]
      omega

theorem lev_comm (xs ys : List α) : lev xs ys = lev ys xs := by
  have H : ∀ n (xs ys : List α), xs.length + ys.length ≤ n → lev xs ys = lev ys xs := by
    intro n
    induction n with
    | zero =>
      intro xs ys h
      have hx : xs.length = 0 := by omega
      have hy : ys.length = 0 := by omega
      rw [List.length_eq_zero] at hx hy
      subst hx; subst hy; rfl
    | succ n ih =>
      intro xs ys h
      match xs, ys with
      | [], ys => rw [lev_nil_left, lev_nil_right]
      | x :: xs, [] => rw [lev_nil_left, lev_nil_right]
      | x :: xs, y :: ys =>
        simp only [List.length_cons] at h
        rw [lev_cons_cons, lev_cons_cons]
        rw [ih xs (y :: ys) (by simp; omega), ih (x :: xs) ys (by simp; omega),
          ih xs ys (by omega)]
        have hc : (if x = y then 0 else 1) = (if y = x then 0 else 1) := by
          by_cases h' : x = y
          · subst h'; rfl
          · rw [if_neg h', if_neg (fun h'' : y = x => h' h''.symm)]
        rw [hc]
        unfold min3
        omega
  exact H (xs.length + ys.length) xs ys le_rfl

theorem lev_del_le (x : α) (xs ys : List α) : lev (x :: xs) ys ≤ lev xs ys + 1 := by
  cases ys with
  | nil => rw [lev_cons_nil]
  | cons y ys => rw [lev_cons_cons]; exact min3_le₁ ..

theorem lev_ins_le (y : α) (xs ys : List α) : lev xs (y :: ys) ≤ lev xs ys + 1 := by
  cases xs with
  | nil => simp [lev_nil_left]
  | cons x xs => rw [lev_cons_cons]; exact min3_le₂ ..

theorem lev_rep_le (x y : α) (xs ys : List α) : lev (x :: xs) (y :: ys) ≤ lev xs ys + 1 := by
  rw [lev_cons_cons]
  have := min3_le₃ (lev xs (y :: ys) + 1) (lev (x :: xs) ys + 1)
    (lev xs ys + (if x = y then 0 else 1))
  have hc := cost_le_one (α := α) x y
  omega

theorem lev_undel_le (ys : List α) : ∀ (x : α) (xs : List α), lev xs ys ≤ lev (x :: xs) ys + 1 := by
  induction ys with
  | nil => intro x xs; rw [lev_nil_right, lev_nil_right]; simp; omega
  | cons y ys ihy =>
    intro x xs
    cases xs with
    | nil =>
      rw [lev_nil_left]
      have := lev_len_le₂ [x] (y :: ys)
      simpa using this
    | cons x' xs' =>
      conv_rhs => rw [lev_cons_cons]
      rcases min3_cases (lev (x' :: xs') (y :: ys) + 1) (lev (x :: x' :: xs') ys + 1)
        (lev (x' :: xs') ys + (if x = y then 0 else 1)) with h | h | h <;> rw [h]
      · omega
      · have ha := lev_ins_le y (x' :: xs') ys
        have hb := ihy x (x' :: xs')
        omega
      · have ha := lev_ins_le y (x' :: xs') ys
        omega

theorem lev_unins_le (y : α) (xs ys : List α) : lev xs ys ≤ lev xs (y :: ys) + 1 := by
  rw [lev_comm xs ys, lev_comm xs (y :: ys)]
  exact lev_undel_le xs y ys

theorem lev_diag (x : α) (xs ys : List α) : lev (x :: xs) (x :: ys) = lev xs ys := by
  apply le_antisymm
  · rw [lev_cons_cons]
    have := min3_le₃ (lev xs (x :: ys) + 1) (lev (x :: xs) ys + 1)
      (lev xs ys + (if x = x then 0 else 1))
    simpa using this
  · rw [lev_cons_cons]
    refine le_min3 ?_ ?_ ?_
    · have := lev_unins_le x xs ys; omega
    · have := lev_undel_le ys x xs; omega
    · simp

theorem lev_self : ∀ xs : List α, lev xs xs = 0
  | [] => rfl
  | x :: xs => by rw [lev_diag, lev_self xs]

theorem lev_eq_zero_iff (xs : List α) : ∀ ys : List α, lev xs ys = 0 ↔ xs = ys := by
  induction xs with
  | nil =>
    intro ys
    cases ys <;> simp [lev_nil_left]
  | cons x xs ih =>
    intro ys
    cases ys with
    | nil => simp [lev_nil_right]
    | cons y ys =>
      rw [lev_cons_cons]
      constructor
      · intro h
        rcases min3_cases (lev xs (y :: ys) + 1) (lev (x :: xs) ys + 1)
          (lev xs ys + (if x = y then 0 else 1)) with hm | hm | hm <;> rw [hm] at h
        · omega
        · omega
        · by_cases hxy : x = y
          · simp only [hxy, if_pos rfl, Nat.add_zero] at h
            rw [(ih ys).mp h, hxy]
          · simp [hxy] at h
      · intro h
        injection h with h1 h2
        subst h1; subst h2
        have h0 : lev xs xs + (if x = x then 0 else 1) = 0 := by simp [lev_self]
        have := min3_le₃ (lev xs (x :: xs) + 1) (lev (x :: xs) xs + 1)
          (lev xs xs + (if x = x then 0 else 1))
        omega

end CDistance

namespace CDistance

variable {α : Type} [DecidableEq α]

theorem min3_add (a b c d : Nat) : min3 a b c + d = min3 (a + d) (b + d) (c + d) := by
  unfold min3; omega

theorem min3_snoc_shuffle (a1 a2 a3 a4 b1 b2 e0 e2 e4 c0 cp : Nat) :
    min3 (min3 (a1 + 1) (e0 + 1) (a2 + c0) + 1) (min3 (b1 + 1) (e2 + 1) (b2 + c0) + 1)
      (min3 (a3 + 1) (e4 + 1) (a4 + c0) + cp)
    = min3 (min3 (a1 + 1) (b1 + 1) (a3 + cp) + 1) (min3 (e0 + 1) (e2 + 1) (e4 + cp) + 1)
      (min3 (a2 + 1) (b2 + 1) (a4 + cp) + c0) := by
  simp only [min3_add]
  apply le_antisymm
  · refine le_min3 (le_min3 ?_ ?_ ?_) (le_min3 ?_ ?_ ?_) (le_min3 ?_ ?_ ?_)
    · exact le_trans (min3_le₁ _ _ _) (min3_le₁ _ _ _)
    · exact le_trans (min3_le₂ _ _ _) (le_trans (min3_le₁ _ _ _) (by omega))
    · exact le_trans (min3_le₃ _ _ _) (le_trans (min3_le₁ _ _ _) (by omega))
    · exact le_trans (min3_le₁ _ _ _) (min3_le₂ _ _ _)
    · exact le_trans (min3_le₂ _ _ _) (le_trans (min3_le₂ _ _ _) (by omega))
    · exact le_trans (min3_le₃ _ _ _) (le_trans (min3_le₂ _ _ _) (by omega))
    · exact le_trans (min3_le₁ _ _ _) (le_trans (min3_le₃ _ _ _) (by omega))
    · exact le_trans (min3_le₂ _ _ _) (le_trans (min3_le₃ _ _ _) (by omega))
    · exact le_trans (min3_le₃ _ _ _) (le_trans (min3_le₃ _ _ _) (by omega))
  · refine le_min3 (le_min3 ?_ ?_ ?_) (le_min3 ?_ ?_ ?_) (le_min3 ?_ ?_ ?_)
    · exact le_trans (min3_le₁ _ _ _) (min3_le₁ _ _ _)
    · exact le_trans (min3_le₂ _ _ _) (le_trans (min3_le₁ _ _ _) (by omega))
    · exact le_trans (min3_le₃ _ _ _) (le_trans (min3_le₁ _ _ _) (by omega))
    · exact le_trans (min3_le₁ _ _ _) (min3_le₂ _ _ _)
    · exact le_trans (min3_le₂ _ _ _) (le_trans (min3_le₂ _ _ _) (by omega))
    · exact le_trans (min3_le₃ _ _ _) (le_trans (min3_le₂ _ _ _) (by omega))
    · exact le_trans (min3_le₁ _ _ _) (le_trans (min3_le₃ _ _ _) (by omega))
    · exact le_trans (min3_le₂ _ _ _) (le_trans (min3_le₃ _ _ _) (by omega))
    · exact le_trans (min3_le₃ _ _ _) (le_trans (min3_le₃ _ _ _) (by omega))

theorem lev_snoc (x y : α) (xs : List α) : ∀ ys : List α,
    lev (xs ++ [x]) (ys ++ [y]) =
      min3 (lev xs (ys ++ [y]) + 1) (lev (xs ++ [x]) ys + 1)
        (lev xs ys + (if x = y then 0 else 1)) := by
  induction xs with
  | nil =>
    intro ys
    induction ys with
    | nil => rfl
    | cons y' ys' ihy =>
      have hL := lev_cons_cons x y' ([] : List α) (ys' ++ [y])
      have hR := lev_cons_cons x y' ([] : List α) ys'
      simp only [List.cons_append, List.nil_append] at hL hR ihy ⊢
      simp only [lev_nil_left, List.length_append, List.length_cons,
        List.length_nil] at hL hR ihy ⊢
      unfold min3 at hL hR ihy ⊢
      omega
  | cons x' xs'' ih =>
    intro ys
    induction ys with
    | nil =>
      have hL := lev_cons_cons x' y (xs'' ++ [x]) ([] : List α)
      have hT := ih []
      have hR := lev_cons_cons x' y xs'' ([] : List α)
      simp only [List.cons_append, List.nil_append] at hL hT hR ⊢
      simp only [lev_nil_right, List.length_append, List.length_cons,
        List.length_nil] at hL hT hR ⊢
      unfold min3 at hL hT hR ⊢
      omega
    | cons y' ys' ihy =>
      have hL := lev_cons_cons x' y' (xs'' ++ [x]) (ys' ++ [y])
      have hT1 := ih (y' :: ys')
      have hT3 := ih ys'
      have hR1 := lev_cons_cons x' y' xs'' (ys' ++ [y])
      have hR2 := lev_cons_cons x' y' (xs'' ++ [x]) ys'
      have hR3 := lev_cons_cons x' y' xs'' ys'
      simp only [List.cons_append, List.nil_append] at hL hT1 hT3 hR1 hR2 hR3 ihy ⊢
      rw [hL, hT1, ihy, hT3, hR1, hR2, hR3]
      exact min3_snoc_shuffle _ _ _ _ _ _ _ _ _ _ _

end CDistance

namespace CDistance

variable {α : Type} [DecidableEq α]

theorem levRowFrom_rowTail (x : α) (u : List α) : ∀ (ys v : List α),
    levRowFrom x (lev (u ++ [x]) v) (lev u v) ys (rowTail u v ys) =
      rowTail (u ++ [x]) v ys := by
  intro ys
  induction ys with
  | nil => intro v; rfl
  | cons y ys ihy =>
    intro v
    have hs := lev_snoc x y u v
    simp only [rowTail, levRowFrom]
    rw [← hs, ihy (v ++ [y])]

theorem levRowC_rowOf (x : α) (u w : List α) :
    levRowC x w (rowOf u w) = rowOf (u ++ [x]) w := by
  have h1 : lev (u ++ [x]) [] = u.length + 1 := by rw [lev_nil_right]; simp
  have h2 : lev u [] = u.length := lev_nil_right u
  have h3 := levRowFrom_rowTail x u w []
  rw [h1, h2] at h3
  simp only [rowOf, levRowC]
  rw [h3]
  simp

theorem rowTail_nil_left : ∀ (ys v : List α),
    rowTail ([] : List α) v ys = (List.range ys.length).map (fun t => v.length + 1 + t) := by
  intro ys
  induction ys with
  | nil => intro v; rfl
  | cons y ys ihy =>
    intro v
    simp only [rowTail, lev_nil_left, List.length_append, List.length_cons,
      List.length_nil]
    rw [ihy (v ++ [y]), List.range_succ_eq_map]
    simp only [List.map_cons, List.map_map, List.length_append, List.length_cons,
      List.length_nil]
    simp only [List.cons.injEq]
    refine ⟨by trivial, ?_⟩
    apply List.map_congr_left
    intro t _
    simp [Function.comp]
    omega

theorem rowOf_nil (w : List α) : rowOf ([] : List α) w = List.range (w.length + 1) := by
  simp only [rowOf, rowTail_nil_left, List.length_nil, List.range_succ_eq_map]
  simp only [List.cons.injEq]
  refine ⟨by trivial, ?_⟩
  apply List.map_congr_left
  intro t _
  omega

theorem rowTail_getLastD (u : List α) : ∀ (ys v : List α) (d : Nat), ys ≠ [] →
    (rowTail u v ys).getLastD d = lev u (v ++ ys) := by
  intro ys
  induction ys with
  | nil => intro v d h; exact absurd rfl h
  | cons y ys ihy =>
    intro v d _
    cases ys with
    | nil => simp [rowTail]
    | cons y' ys' =>
      rw [rowTail, List.getLastD_cons, ihy (v ++ [y]) _ (by simp)]
      simp

theorem rowOf_getLastD (u w : List α) : (rowOf u w).getLastD 0 = lev u w := by
  cases w with
  | nil => simp [rowOf, rowTail, lev_nil_right]
  | cons y ws =>
    rw [rowOf, List.getLastD_cons, rowTail_getLastD u (y :: ws) [] _ (by simp)]
    simp

theorem lev_mem_rowTail (u : List α) : ∀ (ys v p t : List α), p ≠ [] → p ++ t = ys →
    lev u (v ++ p) ∈ rowTail u v ys := by
  intro ys
  induction ys with
  | nil =>
    intro v p t hp h
    exact absurd (List.append_eq_nil.mp h).1 hp
  | cons y ys ihy =>
    intro v p t hp h
    cases p with
    | nil => exact absurd rfl hp
    | cons q p' =>
      simp only [List.cons_append, List.cons.injEq] at h
      obtain ⟨h1, h2⟩ := h
      rw [h1]
      cases p' with
      | nil =>
        simp [rowTail]
      | cons q' p'' =>
        rw [rowTail]
        refine List.mem_cons_of_mem _ ?_
        have := ihy (v ++ [y]) (q' :: p'') t (by simp) h2
        simpa using this

theorem lev_mem_rowOf (u w : List α) : lev u w ∈ rowOf u w := by
  cases w with
  | nil => simp [rowOf, lev_nil_right]
  | cons y ws =>
    rw [rowOf]
    refine List.mem_cons_of_mem _ ?_
    have := lev_mem_rowTail u (y :: ws) [] (y :: ws) [] (by simp) (by simp)
    simpa using this

theorem lev_pref_mem_rowOf (u w p t : List α) (h : p ++ t = w) : lev u p ∈ rowOf u w := by
  cases p with
  | nil => simp [rowOf, lev_nil_right]
  | cons q p' =>
    rw [rowOf]
    refine List.mem_cons_of_mem _ ?_
    have := lev_mem_rowTail u w [] (q :: p') t (by simp) h
    simpa using this

theorem minScan_le (g : Int) : ∀ (row : List Nat) (a : Nat), a ∈ row → minScan g row ≤ (a : Int) := by
  intro row
  induction row with
  | nil => intro a ha; simp at ha
  | cons b row ih =>
    intro a ha
    rw [List.mem_cons] at ha
    simp only [minScan, List.foldr_cons]
    rcases ha with rfl | ha
    · exact min_le_left _ _
    · exact le_trans (min_le_right _ _) (ih a ha)

end CDistance

namespace CDistance

variable {α : Type} [DecidableEq α]

theorem rowTail_step_ge (x : α) (u w : List α) : ∀ (ys v : List α), v ++ ys = w →
    (∃ a ∈ rowOf u w, a ≤ lev (u ++ [x]) v) →
    ∀ b ∈ rowTail (u ++ [x]) v ys, ∃ a ∈ rowOf u w, a ≤ b := by
  intro ys
  induction ys with
  | nil => intro v _ _ b hb; simp [rowTail] at hb
  | cons y ys ihy =>
    intro v hw hL b hb
    have hd : ∃ a ∈ rowOf u w, a ≤ lev (u ++ [x]) (v ++ [y]) := by
      rw [lev_snoc]
      rcases min3_cases (lev u (v ++ [y]) + 1) (lev (u ++ [x]) v + 1)
        (lev u v + (if x = y then 0 else 1)) with h | h | h <;> rw [h]
      · refine ⟨lev u (v ++ [y]), lev_pref_mem_rowOf u w (v ++ [y]) ys ?_, by omega⟩
        simpa [List.append_assoc] using hw
      · rcases hL with ⟨a, ha, hle⟩
        exact ⟨a, ha, by omega⟩
      · exact ⟨lev u v, lev_pref_mem_rowOf u w v (y :: ys) hw, Nat.le_add_right _ _⟩
    rw [rowTail] at hb
    rcases List.mem_cons.mp hb with rfl | hb'
    · exact hd
    · exact ihy (v ++ [y]) (by simpa [List.append_assoc] using hw) hd b hb'

theorem rowOf_step_ge (x : α) (u w : List α) : ∀ b ∈ rowOf (u ++ [x]) w, ∃ a ∈ rowOf u w, a ≤ b := by
  intro b hb
  rw [rowOf] at hb
  rcases List.mem_cons.mp hb with rfl | hb'
  · exact ⟨u.length, by simp [rowOf], by simp⟩
  · refine rowTail_step_ge x u w w [] (by simp) ?_ b hb'
    exact ⟨u.length, by simp [rowOf], by rw [lev_nil_right]; simp⟩

theorem row_le_lev (w : List α) : ∀ (rest u : List α), ∃ a ∈ rowOf u w, a ≤ lev (u ++ rest) w := by
  intro rest
  induction rest with
  | nil => intro u; exact ⟨lev u w, lev_mem_rowOf u w, by simp⟩
  | cons x rest ih =>
    intro u
    rcases ih (u ++ [x]) with ⟨a, ha, hle⟩
    rcases rowOf_step_ge x u w a ha with ⟨a0, ha0, h0⟩
    have heq : (u ++ [x]) ++ rest = u ++ x :: rest := by simp
    rw [heq] at hle
    exact ⟨a0, ha0, le_trans h0 hle⟩

theorem levLoopC_rowOf (w : List α) (k g : Int) : ∀ (xs u : List α),
    levLoopC w k g xs (rowOf u w) =
      if 0 ≤ k ∧ k < (lev (u ++ xs) w : Int) then -1 else (lev (u ++ xs) w : Int) := by
  intro xs
  induction xs with
  | nil =>
    intro u
    simp only [levLoopC, rowOf_getLastD, List.append_nil]
  | cons x xs ih =>
    intro u
    simp only [levLoopC]
    rw [levRowC_rowOf]
    by_cases habort : 0 ≤ k ∧ k < minScan g (rowOf (u ++ [x]) w)
    · rw [if_pos habort]
      rcases row_le_lev w xs (u ++ [x]) with ⟨a, ha, hle⟩
      have hm := minScan_le g (rowOf (u ++ [x]) w) a ha
      have heq : (u ++ [x]) ++ xs = u ++ x :: xs := by simp
      rw [heq] at hle
      have hlt : k < (lev (u ++ x :: xs) w : Int) := by
        have hc : (a : Int) ≤ (lev (u ++ x :: xs) w : Int) := by exact_mod_cast hle
        have := habort.2
        omega
      rw [if_pos ⟨habort.1, hlt⟩]
    · rw [if_neg habort, ih (u ++ [x])]
      have heq : (u ++ [x]) ++ xs = u ++ x :: xs := by simp
      rw [heq]

theorem levenshtein_neg (s1 s2 : List α) (k g : Int) (hk : k < 0) :
    levenshtein s1 s2 k g = (lev s1 s2 : Int) := by
  have hneg : ¬((0 : Int) ≤ k) := by omega
  by_cases hsw : s1.length < s2.length <;>
    simp only [levenshtein, hsw, if_true, if_false]
  · rw [if_neg (fun h => hneg h.1)]
    by_cases h2 : s2.length = 0
    · omega
    · rw [if_neg h2]
      by_cases h1 : s1.length = 0
      · rw [if_pos h1]
        rw [List.length_eq_zero] at h1
        subst h1
        rw [lev_nil_left]
      · rw [if_neg h1, ← rowOf_nil, levLoopC_rowOf]
        rw [if_neg (fun h => hneg h.1)]
        simp [lev_comm s2 s1]
  · rw [if_neg (fun h => hneg h.1)]
    by_cases h1 : s1.length = 0
    · rw [if_pos h1]
      rw [List.length_eq_zero] at h1
      subst h1
      rw [lev_nil_left]
    · rw [if_neg h1]
      by_cases h2 : s2.length = 0
      · rw [if_pos h2]
        rw [List.length_eq_zero] at h2
        subst h2
        rw [lev_nil_right]
      · rw [if_neg h2, ← rowOf_nil, levLoopC_rowOf]
        rw [if_neg (fun h => hneg h.1)]
        simp

theorem levenshtein_uncapped (s1 s2 : List α) (g : Int) :
    levenshtein s1 s2 (-1) g = (lev s1 s2 : Int) :=
  levenshtein_neg s1 s2 (-1) g (by omega)

theorem levenshtein_capped (s1 s2 : List α) (k g : Int) (hk : 0 ≤ k) :
    levenshtein s1 s2 k g =
      if (lev s1 s2 : Int) ≤ k then (lev s1 s2 : Int) else -1 := by
  have hg1 : (s1.length : Int) ≤ (lev s1 s2 : Int) + s2.length := by exact_mod_cast lev_len_le s1 s2
  have hg2 : (s2.length : Int) ≤ (lev s1 s2 : Int) + s1.length := by exact_mod_cast lev_len_le₂ s1 s2
  by_cases hsw : s1.length < s2.length <;>
    simp only [levenshtein, hsw, if_true, if_false]
  · by_cases hgap : k < (s2.length : Int) - (s1.length : Int)
    · rw [if_pos ⟨hk, hgap⟩, if_neg (by omega)]
    · rw [if_neg (fun h => hgap h.2)]
      by_cases h2 : s2.length = 0
      · omega
      · rw [if_neg h2]
        by_cases h1 : s1.length = 0
        · rw [if_pos h1]
          rw [List.length_eq_zero] at h1
          subst h1
          rw [lev_nil_left]
          rw [if_pos (by simp at hgap ⊢; omega)]
        · rw [if_neg h1, ← rowOf_nil, levLoopC_rowOf]
          rw [List.nil_append, lev_comm s2 s1]
          by_cases hle : (lev s1 s2 : Int) ≤ k
          · rw [if_neg (by omega), if_pos hle]
          · rw [if_pos ⟨hk, by omega⟩, if_neg hle]
  · by_cases hgap : k < (s1.length : Int) - (s2.length : Int)
    · rw [if_pos ⟨hk, hgap⟩, if_neg (by omega)]
    · rw [if_neg (fun h => hgap h.2)]
      by_cases h1 : s1.length = 0
      · rw [if_pos h1]
        rw [List.length_eq_zero] at h1
        subst h1
        simp only [List.length_nil, Nat.not_lt] at hsw
        rw [lev_nil_left]
        rw [if_pos (by omega)]
      · rw [if_neg h1]
        by_cases h2 : s2.length = 0
        · rw [if_pos h2]
          rw [List.length_eq_zero] at h2
          subst h2
          simp only [List.length_nil, Int.natCast_zero, Int.sub_zero, not_lt] at hgap
          rw [lev_nil_right]
          rw [if_pos (by omega)]
        · rw [if_neg h2, ← rowOf_nil, levLoopC_rowOf]
          rw [List.nil_append]
          by_cases hle : (lev s1 s2 : Int) ≤ k
          · rw [if_neg (by omega), if_pos hle]
          · rw [if_pos ⟨hk, by omega⟩, if_neg hle]

end CDistance

namespace CDistance

variable {α : Type} [DecidableEq α]

theorem foldlM_none_of_mem (f : Int → Int → Option Int) (hf : ∀ m, f m (-1) = none) :
    ∀ (l : List Int) (m : Int), (-1 : Int) ∈ l → l.foldlM f m = none := by
  intro l
  induction l with
  | nil => intro m hm; simp at hm
  | cons i0 l ih =>
    intro m hm
    rw [List.foldlM_cons]
    rcases List.mem_cons.mp hm with h0 | h0
    · rw [← h0, hf m]
      rfl
    · cases h : f m i0 with
      | none => rfl
      | some a => simpa [h] using ih a h0

theorem neg_one_mem_reads (L : Nat) (hL : L ≠ 0) :
    (-1 : Int) ∈ (List.range L).reverse.map (fun t : Nat => (t : Int) - 1) := by
  simp only [List.mem_map, List.mem_reverse, List.mem_range]
  exact ⟨0, by omega, by simp⟩

/-- The `minimum` scan of levenshtein.c always ends by reading `column[-1]`,
so its total embedding returns the error value on every input. -/
theorem minimum_always_oob (col : List Nat) : minimum col = none := by
  cases col with
  | nil => decide
  | cons c0 cs =>
    rw [minimum]
    cases h : intGet (c0 :: cs) (((c0 :: cs).length : Int) - 1) with
    | none => rfl
    | some a =>
      simp only [h, Option.bind_some, Option.some_bind]
      exact foldlM_none_of_mem _ (fun m => by simp [intGet]) _ _
        (neg_one_mem_reads _ (by simp))

theorem hamming_eq_count : ∀ s1 s2 : List α,
    hamming s1 s2 = (s1.zip s2).countP (fun p => decide (p.1 ≠ p.2)) := by
  intro s1
  induction s1 with
  | nil => intro s2; cases s2 <;> rfl
  | cons x xs ih =>
    intro s2
    cases s2 with
    | nil => rfl
    | cons y ys =>
      show (if x = y then 0 else 1) + hamming xs ys = _
      rw [List.zip_cons_cons, List.countP_cons, ih ys]
      by_cases hxy : x = y <;> simp [hxy] <;> omega

end CDistance

namespace CDistance

variable {α : Type} [DecidableEq α]

/-- C1: Capping law for the Levenshtein engine. For every pair of sequences
and every cap k >= 0 (and any values g, g' of the out-of-bounds cell read by
the row-minimum scan): the uncapped call computes the true edit distance; the
capped call returns that distance when it is <= k and the ExceedsBound
sentinel -1 otherwise; and when the length gap alone exceeds k the result is
-1 (by the short-circuit sitting before the DP in `levenshtein`). -/
theorem levenshtein_capping_law (s1 s2 : List α) (k g g' : Int) (hk : 0 ≤ k) :
    levenshtein s1 s2 (-1) g' = (lev s1 s2 : Int) ∧
    levenshtein s1 s2 k g =
      (if (lev s1 s2 : Int) ≤ k then (lev s1 s2 : Int) else -1) ∧
    ((k < (s1.length : Int) - (s2.length : Int) ∨
        k < (s2.length : Int) - (s1.length : Int)) →
      levenshtein s1 s2 k g = -1) := by
  refine ⟨levenshtein_uncapped s1 s2 g', levenshtein_capped s1 s2 k g hk, ?_⟩
  intro hgap
  rw [levenshtein_capped s1 s2 k g hk]
  have hg1 : (s1.length : Int) ≤ (lev s1 s2 : Int) + s2.length := by
    exact_mod_cast lev_len_le s1 s2
  have hg2 : (s2.length : Int) ≤ (lev s1 s2 : Int) + s1.length := by
    exact_mod_cast lev_len_le₂ s1 s2
  rw [if_neg (by omega)]

theorem levenshtein_capping_law_witness :
    levenshtein ([0, 1, 2] : List Nat) [1, 2] (-1) 9 = (lev ([0, 1, 2] : List Nat) [1, 2] : Int) ∧
    levenshtein ([0, 1, 2] : List Nat) [1, 2] 1 7 =
      (if (lev ([0, 1, 2] : List Nat) [1, 2] : Int) ≤ 1 then
        (lev ([0, 1, 2] : List Nat) [1, 2] : Int) else -1) ∧
    ((1 < ((([0, 1, 2] : List Nat)).length : Int) - ((([1, 2] : List Nat)).length : Int) ∨
        1 < ((([1, 2] : List Nat)).length : Int) - ((([0, 1, 2] : List Nat)).length : Int)) →
      levenshtein ([0, 1, 2] : List Nat) [1, 2] 1 7 = -1) :=
  levenshtein_capping_law [0, 1, 2] [1, 2] 1 7 9 (by decide)

/-- C10: the row-minimum helper reads the out-of-bounds cell `column[-1]` on
every call (the loop condition is `len-- >= 0` instead of `len-- > 0`), so in
the total embedding, where an out-of-range read is an error value, every call
of `minimum` hits the error branch: the claim that the scan only reads
indices inside `[0, len)` fails on every row the DP passes to it. -/
theorem minimum_scan_reads_out_of_bounds (col : List Nat) (hcol : col ≠ []) :
    minimum col = none := minimum_always_oob col

theorem minimum_scan_reads_out_of_bounds_witness :
    minimum [0, 1] = none :=
  minimum_scan_reads_out_of_bounds [0, 1] (by decide)

/-- C8: Hamming contract. The wrapper fails (LengthMismatch) exactly when the
lengths differ; for equal lengths it returns the number of positions at which
the sequences differ; two empty sequences give 0; the normalized variant
returns 0 at length 0 and dist/len otherwise. -/
theorem hamming_contract (s1 s2 : List α) :
    (hammingPy s1 s2 = none ↔ s1.length ≠ s2.length) ∧
    (hammingNormPy s1 s2 = none ↔ s1.length ≠ s2.length) ∧
    (s1.length = s2.length →
      hammingPy s1 s2 = some ((s1.zip s2).countP (fun p => decide (p.1 ≠ p.2)))) ∧
    (hammingPy ([] : List α) [] = some 0) ∧
    (s1.length = s2.length → s1.length = 0 → hammingNormPy s1 s2 = some 0) ∧
    (s1.length = s2.length → s1.length ≠ 0 →
      hammingNormPy s1 s2 = some ((hamming s1 s2 : Rat) / (s1.length : Rat))) := by
  refine ⟨?_, ?_, ?_, rfl, ?_, ?_⟩
  · constructor
    · intro h hlen
      rw [hammingPy, if_neg (fun hne => hne hlen)] at h
      exact Option.noConfusion h
    · intro hlen
      rw [hammingPy, if_pos hlen]
  · constructor
    · intro h hlen
      rw [hammingNormPy, if_neg (fun hne => hne hlen)] at h
      by_cases h0 : s1.length = 0
      · rw [if_pos h0] at h
        exact Option.noConfusion h
      · rw [if_neg h0] at h
        exact Option.noConfusion h
    · intro hlen
      rw [hammingNormPy, if_pos hlen]
  · intro hlen
    rw [hammingPy, if_neg (by omega), hamming_eq_count]
  · intro hlen h0
    rw [hammingNormPy, if_neg (by omega), if_pos h0]
  · intro hlen h0
    rw [hammingNormPy, if_neg (by omega), if_neg h0]

theorem hamming_contract_witness :
    (hammingPy ([0, 1, 2] : List Nat) [0, 2, 2] = none ↔
      (([0, 1, 2] : List Nat)).length ≠ (([0, 2, 2] : List Nat)).length) ∧
    (hammingNormPy ([0, 1, 2] : List Nat) [0, 2, 2] = none ↔
      (([0, 1, 2] : List Nat)).length ≠ (([0, 2, 2] : List Nat)).length) ∧
    ((([0, 1, 2] : List Nat)).length = (([0, 2, 2] : List Nat)).length →
      hammingPy ([0, 1, 2] : List Nat) [0, 2, 2] =
        some ((([0, 1, 2] : List Nat).zip [0, 2, 2]).countP (fun p => decide (p.1 ≠ p.2)))) ∧
    (hammingPy ([] : List Nat) [] = some 0) ∧
    ((([0, 1, 2] : List Nat)).length = (([0, 2, 2] : List Nat)).length →
      (([0, 1, 2] : List Nat)).length = 0 →
      hammingNormPy ([0, 1, 2] : List Nat) [0, 2, 2] = some 0) ∧
    ((([0, 1, 2] : List Nat)).length = (([0, 2, 2] : List Nat)).length →
      (([0, 1, 2] : List Nat)).length ≠ 0 →
      hammingNormPy ([0, 1, 2] : List Nat) [0, 2, 2] =
        some ((hamming ([0, 1, 2] : List Nat) [0, 2, 2] : Rat) /
          ((([0, 1, 2] : List Nat)).length : Rat))) :=
  hamming_contract [0, 1, 2] [0, 2, 2]

end CDistance

namespace CDistance

variable {α : Type} [DecidableEq α]

theorem nlevRowFrom_fst (x : α) : ∀ (ys : List α) (ps : List (Nat × Nat)) (left lleft diag ldiag : Nat),
    (nlevRowFrom x (left, lleft) (diag, ldiag) ys ps).map Prod.fst =
      levRowFrom x left diag ys (ps.map Prod.fst) := by
  intro ys
  induction ys with
  | nil =>
    intro ps left lleft diag ldiag
    cases ps <;> rfl
  | cons y ys ihy =>
    intro ps left lleft diag ldiag
    cases ps with
    | nil => rfl
    | cons q ps =>
      obtain ⟨p, lp⟩ := q
      have hm : min3 (left + 1) (p + 1) (diag + (if x = y then 0 else 1)) =
          min3 (p + 1) (left + 1) (diag + (if x = y then 0 else 1)) := by
        unfold min3; omega
      simp only [nlevRowFrom, levRowFrom, List.map_cons]
      rw [hm, ihy]

theorem nlevRowC_fst (x : α) (w : List α) (prev : List (Nat × Nat)) :
    (nlevRowC x w prev).map Prod.fst = levRowC x w (prev.map Prod.fst) := by
  cases prev with
  | nil => rfl
  | cons q ps =>
    obtain ⟨d, ld⟩ := q
    simp only [nlevRowC, levRowC, List.map_cons]
    rw [nlevRowFrom_fst]

theorem nlevLoopC_fst_rowOf (w : List α) : ∀ (xs : List α) (row : List (Nat × Nat)) (u : List α),
    row.map Prod.fst = rowOf u w →
    (nlevLoopC w xs row).map Prod.fst = rowOf (u ++ xs) w := by
  intro xs
  induction xs with
  | nil =>
    intro row u h
    simpa [nlevLoopC] using h
  | cons x xs ih =>
    intro row u h
    rw [nlevLoopC]
    have h' : (nlevRowC x w row).map Prod.fst = rowOf (u ++ [x]) w := by
      rw [nlevRowC_fst, h, levRowC_rowOf]
    rw [ih (nlevRowC x w row) (u ++ [x]) h']
    have heq : (u ++ [x]) ++ xs = u ++ x :: xs := by simp
    rw [heq]

theorem nlev_cell_le (left lleft diag ldiag p lp c : Nat)
    (h1 : left ≤ lleft) (h2 : diag ≤ ldiag) (hq : p ≤ lp) (hc : c ≤ 1) :
    min3 (left + 1) (p + 1) (diag + c) ≤
      max3 (if left + 1 = min3 (left + 1) (p + 1) (diag + c) then lleft + 1 else 0)
        (if p + 1 = min3 (left + 1) (p + 1) (diag + c) then lp + 1 else 0)
        (if diag + c = min3 (left + 1) (p + 1) (diag + c) then ldiag + 1 else 0) ∧
    1 ≤ max3 (if left + 1 = min3 (left + 1) (p + 1) (diag + c) then lleft + 1 else 0)
        (if p + 1 = min3 (left + 1) (p + 1) (diag + c) then lp + 1 else 0)
        (if diag + c = min3 (left + 1) (p + 1) (diag + c) then ldiag + 1 else 0) := by
  rcases min3_cases (left + 1) (p + 1) (diag + c) with h | h | h
  · rw [if_pos h.symm]
    constructor
    · have := max3_ge₁ (lleft + 1)
        (if p + 1 = min3 (left + 1) (p + 1) (diag + c) then lp + 1 else 0)
        (if diag + c = min3 (left + 1) (p + 1) (diag + c) then ldiag + 1 else 0)
      omega
    · have := max3_ge₁ (lleft + 1)
        (if p + 1 = min3 (left + 1) (p + 1) (diag + c) then lp + 1 else 0)
        (if diag + c = min3 (left + 1) (p + 1) (diag + c) then ldiag + 1 else 0)
      omega
  · rw [if_pos h.symm]
    constructor
    · have := max3_ge₂
        (if left + 1 = min3 (left + 1) (p + 1) (diag + c) then lleft + 1 else 0) (lp + 1)
        (if diag + c = min3 (left + 1) (p + 1) (diag + c) then ldiag + 1 else 0)
      omega
    · have := max3_ge₂
        (if left + 1 = min3 (left + 1) (p + 1) (diag + c) then lleft + 1 else 0) (lp + 1)
        (if diag + c = min3 (left + 1) (p + 1) (diag + c) then ldiag + 1 else 0)
      omega
  · rw [if_pos h.symm]
    constructor
    · have := max3_ge₃
        (if left + 1 = min3 (left + 1) (p + 1) (diag + c) then lleft + 1 else 0)
        (if p + 1 = min3 (left + 1) (p + 1) (diag + c) then lp + 1 else 0) (ldiag + 1)
      omega
    · have := max3_ge₃
        (if left + 1 = min3 (left + 1) (p + 1) (diag + c) then lleft + 1 else 0)
        (if p + 1 = min3 (left + 1) (p + 1) (diag + c) then lp + 1 else 0) (ldiag + 1)
      omega

theorem nlevRowFrom_le (x : α) : ∀ (ys : List α) (ps : List (Nat × Nat)) (left lleft diag ldiag : Nat),
    left ≤ lleft → diag ≤ ldiag → (∀ q ∈ ps, q.1 ≤ q.2) →
    ∀ r ∈ nlevRowFrom x (left, lleft) (diag, ldiag) ys ps, r.1 ≤ r.2 ∧ 1 ≤ r.2 := by
  intro ys
  induction ys with
  | nil =>
    intro ps left lleft diag ldiag _ _ _ r hr
    cases ps <;> simp [nlevRowFrom] at hr
  | cons y ys ihy =>
    intro ps left lleft diag ldiag h1 h2 h3 r hr
    cases ps with
    | nil => simp [nlevRowFrom] at hr
    | cons q ps =>
      obtain ⟨p, lp⟩ := q
      have hq : p ≤ lp := h3 (p, lp) (List.mem_cons_self _ _)
      have hps : ∀ q' ∈ ps, q'.1 ≤ q'.2 := fun q' hq' => h3 q' (List.mem_cons_of_mem _ hq')
      have hcell := nlev_cell_le left lleft diag ldiag p lp (if x = y then 0 else 1)
        h1 h2 hq (cost_le_one x y)
      simp only [nlevRowFrom] at hr
      rcases List.mem_cons.mp hr with rfl | hr'
      · exact hcell
      · exact ihy ps _ _ p lp hcell.1 hq hps r hr'

theorem nlevRowC_le (x : α) (w : List α) (prev : List (Nat × Nat))
    (h : ∀ q ∈ prev, q.1 ≤ q.2) :
    ∀ r ∈ nlevRowC x w prev, r.1 ≤ r.2 ∧ 1 ≤ r.2 := by
  cases prev with
  | nil => intro r hr; simp [nlevRowC] at hr
  | cons q ps =>
    obtain ⟨d, ld⟩ := q
    intro r hr
    have hd : d ≤ ld := h (d, ld) (List.mem_cons_self _ _)
    have hps : ∀ q' ∈ ps, q'.1 ≤ q'.2 := fun q' hq' => h q' (List.mem_cons_of_mem _ hq')
    simp only [nlevRowC] at hr
    rcases List.mem_cons.mp hr with rfl | hr'
    · exact ⟨le_rfl, by omega⟩
    · exact nlevRowFrom_le x w ps (d + 1) (d + 1) d ld le_rfl hd hps r hr'

theorem nlevRowC_ne_nil (x : α) (w : List α) (prev : List (Nat × Nat)) (h : prev ≠ []) :
    nlevRowC x w prev ≠ [] := by
  cases prev with
  | nil => exact absurd rfl h
  | cons q ps =>
    obtain ⟨d, ld⟩ := q
    simp [nlevRowC]

theorem nlevLoopC_le (w : List α) : ∀ (xs : List α) (row : List (Nat × Nat)),
    xs ≠ [] → (∀ q ∈ row, q.1 ≤ q.2) →
    ∀ r ∈ nlevLoopC w xs row, r.1 ≤ r.2 ∧ 1 ≤ r.2 := by
  intro xs
  induction xs with
  | nil => intro row h; exact absurd rfl h
  | cons x xs ih =>
    intro row _ hrow
    rw [nlevLoopC]
    cases hxs : xs with
    | nil =>
      rw [nlevLoopC]
      exact nlevRowC_le x w row hrow
    | cons x' xs' =>
      rw [← hxs]
      refine ih (nlevRowC x w row) (by rw [hxs]; simp) ?_
      intro q hq
      exact (nlevRowC_le x w row hrow q hq).1

theorem nlevLoopC_ne_nil (w : List α) : ∀ (xs : List α) (row : List (Nat × Nat)),
    row ≠ [] → nlevLoopC w xs row ≠ [] := by
  intro xs
  induction xs with
  | nil => intro row h; simpa [nlevLoopC] using h
  | cons x xs ih =>
    intro row h
    rw [nlevLoopC]
    exact ih _ (nlevRowC_ne_nil x w row h)

theorem getLastD_mem : ∀ (l : List (Nat × Nat)) (d : Nat × Nat), l ≠ [] → l.getLastD d ∈ l := by
  intro l
  induction l with
  | nil => intro d h; exact absurd rfl h
  | cons a l ih =>
    intro d _
    rw [List.getLastD_cons]
    cases l with
    | nil => simp
    | cons b l' => exact List.mem_cons_of_mem _ (ih a (by simp))

theorem getLastD_fst : ∀ (l : List (Nat × Nat)) (d : Nat × Nat),
    (l.getLastD d).1 = (l.map Prod.fst).getLastD d.1 := by
  intro l
  induction l with
  | nil => intro d; rfl
  | cons a l ih =>
    intro d
    rw [List.getLastD_cons, List.map_cons, List.getLastD_cons, ih a]

end CDistance

namespace CDistance

variable {α : Type} [DecidableEq α]

theorem nlev_final (a b : List α) (ha : a ≠ []) (hb : b ≠ []) :
    ((nlevLoopC b a ((List.range (b.length + 1)).map (fun j => (j, j)))).getLastD (0, 0)).1 = lev a b ∧
    ((nlevLoopC b a ((List.range (b.length + 1)).map (fun j => (j, j)))).getLastD (0, 0)).1 ≤
      ((nlevLoopC b a ((List.range (b.length + 1)).map (fun j => (j, j)))).getLastD (0, 0)).2 ∧
    1 ≤ ((nlevLoopC b a ((List.range (b.length + 1)).map (fun j => (j, j)))).getLastD (0, 0)).2 := by
  have hfst : (nlevLoopC b a ((List.range (b.length + 1)).map (fun j => (j, j)))).map Prod.fst =
      rowOf a b := by
    have h0 : ((List.range (b.length + 1)).map (fun j => (j, j))).map
        (Prod.fst : Nat × Nat → Nat) = rowOf ([] : List α) b := by
      rw [rowOf_nil, List.map_map]
      have hco : (Prod.fst ∘ fun j : Nat => (j, j)) = id := rfl
      rw [hco, List.map_id]
    have := nlevLoopC_fst_rowOf b a ((List.range (b.length + 1)).map (fun j => (j, j))) [] h0
    simpa using this
  have h1 : ((nlevLoopC b a ((List.range (b.length + 1)).map (fun j => (j, j)))).getLastD (0, 0)).1 =
      lev a b := by
    rw [getLastD_fst, hfst]
    exact rowOf_getLastD a b
  have hne : nlevLoopC b a ((List.range (b.length + 1)).map (fun j => (j, j))) ≠ [] := by
    apply nlevLoopC_ne_nil
    simp
  have hmem := getLastD_mem _ (0, 0) hne
  have hinv := nlevLoopC_le b a ((List.range (b.length + 1)).map (fun j => (j, j))) ha
    (by
      intro q hq
      rw [List.mem_map] at hq
      rcases hq with ⟨j, _, rfl⟩
      exact le_rfl) _ hmem
  exact ⟨h1, hinv.1, hinv.2⟩

theorem nlevenshtein_props (a b : List α) (m : Nat) (hab : b.length ≤ a.length) :
    0 ≤ nlevenshtein a b m ∧ nlevenshtein a b m ≤ 1 ∧
    (nlevenshtein a b m = 0 ↔ a = b) ∧
    (a.length = 0 → nlevenshtein a b m = 0) ∧
    (b.length = 0 → a.length ≠ 0 → nlevenshtein a b m = 1) := by
  by_cases ha : a.length = 0
  · have hb : b.length = 0 := by omega
    rw [List.length_eq_zero] at ha hb
    subst ha; subst hb
    have h00 : nlevenshtein ([] : List α) ([] : List α) m = 0 := by
      simp [nlevenshtein]
    rw [h00]
    refine ⟨le_refl 0, by norm_num, by simp, fun _ => rfl, ?_⟩
    intro _ h
    simp at h
  · by_cases hb : b.length = 0
    · have h01 : nlevenshtein a b m = 1 := by
        simp only [nlevenshtein, if_neg ha, if_pos hb]
      rw [h01]
      refine ⟨by norm_num, le_refl 1, ?_, fun h => absurd h ha, fun _ _ => rfl⟩
      constructor
      · intro h; norm_num at h
      · intro h
        subst h
        exact absurd hb ha
    · have hane : a ≠ [] := by intro h; rw [h] at ha; simp at ha
      have hbne : b ≠ [] := by intro h; rw [h] at hb; simp at hb
      by_cases hm1 : m = 1
      · simp only [nlevenshtein, if_neg ha, if_neg hb, if_pos hm1]
        rw [levenshtein_uncapped]
        rw [if_neg (by omega)]
        have hlev_le : lev a b ≤ a.length := by
          have := lev_le_max a b
          omega
        have hapos : (0 : Rat) < (a.length : Rat) := by
          exact_mod_cast Nat.pos_of_ne_zero ha
        refine ⟨?_, ?_, ?_, fun h => absurd h ha, fun h => absurd h hb⟩
        · positivity
        · rw [div_le_one hapos]
          exact_mod_cast hlev_le
        · rw [div_eq_zero_iff]
          constructor
          · rintro (h | h)
            · have h0 : lev a b = 0 := by exact_mod_cast h
              exact (lev_eq_zero_iff a b).mp h0
            · exact absurd h (ne_of_gt hapos)
          · intro h
            exact Or.inl (by exact_mod_cast (lev_eq_zero_iff a b).mpr h)
      · simp only [nlevenshtein, if_neg ha, if_neg hb, if_neg hm1]
        obtain ⟨h1, h2, h3⟩ := nlev_final a b hane hbne
        have hp2 : (0 : Rat) <
            ((((nlevLoopC b a ((List.range (b.length + 1)).map (fun j => (j, j)))).getLastD
              (0, 0)).2 : Nat) : Rat) := by
          exact_mod_cast h3
        refine ⟨by positivity, ?_, ?_, fun h => absurd h ha, fun h => absurd h hb⟩
        · rw [div_le_one hp2]
          exact_mod_cast h2
        · rw [div_eq_zero_iff]
          constructor
          · rintro (h | h)
            · have h0 : ((nlevLoopC b a ((List.range (b.length + 1)).map
                  (fun j => (j, j)))).getLastD (0, 0)).1 = 0 := by exact_mod_cast h
              rw [h1] at h0
              exact (lev_eq_zero_iff a b).mp h0
            · exact absurd h (ne_of_gt hp2)
          · intro h
            refine Or.inl ?_
            have h0 : lev a b = 0 := (lev_eq_zero_iff a b).mpr h
            rw [← h1] at h0
            exact_mod_cast h0

/-- C7: Normalization bounds. For both normalization methods the wrapper
result lies in [0, 1]; it is 0 exactly when the sequences are equal; it is 1
when exactly one sequence is empty, and 0 when both are empty. -/
theorem nlevenshtein_normalization_bounds (s1 s2 : List α) (m : Nat) (hm : m = 1 ∨ m = 2) :
    0 ≤ nlevenshteinPy s1 s2 m ∧ nlevenshteinPy s1 s2 m ≤ 1 ∧
    (nlevenshteinPy s1 s2 m = 0 ↔ s1 = s2) ∧
    (s1 = [] → s2 ≠ [] → nlevenshteinPy s1 s2 m = 1) ∧
    (s1 ≠ [] → s2 = [] → nlevenshteinPy s1 s2 m = 1) ∧
    (s1 = [] → s2 = [] → nlevenshteinPy s1 s2 m = 0) := by
  rw [nlevenshteinPy]
  by_cases hsw : s1.length < s2.length
  · rw [if_pos hsw]
    obtain ⟨hp0, hp1, hp2, hp3, hp4⟩ := nlevenshtein_props s2 s1 m (le_of_lt hsw)
    refine ⟨hp0, hp1, ?_, ?_, ?_, ?_⟩
    · rw [hp2]
      exact eq_comm
    · intro h1 h2
      apply hp4
      · rw [h1]; rfl
      · intro hc
        rw [List.length_eq_zero] at hc
        exact h2 hc
    · intro h1 h2
      rw [h2] at hsw
      simp at hsw
    · intro h1 h2
      rw [h1, h2] at hsw
      simp at hsw
  · rw [if_neg hsw]
    have hab : s2.length ≤ s1.length := by omega
    obtain ⟨hp0, hp1, hp2, hp3, hp4⟩ := nlevenshtein_props s1 s2 m hab
    refine ⟨hp0, hp1, hp2, ?_, ?_, ?_⟩
    · intro h1 h2
      rw [h1] at hab
      simp only [List.length_nil, Nat.le_zero, List.length_eq_zero] at hab
      exact absurd hab h2
    · intro h1 h2
      apply hp4
      · rw [h2]; rfl
      · intro hc
        rw [List.length_eq_zero] at hc
        exact h1 hc
    · intro h1 h2
      apply hp3
      rw [h1]; rfl

theorem nlevenshtein_normalization_bounds_witness :
    0 ≤ nlevenshteinPy ([0, 1] : List Nat) [1] 2 ∧ nlevenshteinPy ([0, 1] : List Nat) [1] 2 ≤ 1 ∧
    (nlevenshteinPy ([0, 1] : List Nat) [1] 2 = 0 ↔ ([0, 1] : List Nat) = [1]) ∧
    (([0, 1] : List Nat) = [] → ([1] : List Nat) ≠ [] → nlevenshteinPy ([0, 1] : List Nat) [1] 2 = 1) ∧
    (([0, 1] : List Nat) ≠ [] → ([1] : List Nat) = [] → nlevenshteinPy ([0, 1] : List Nat) [1] 2 = 1) ∧
    (([0, 1] : List Nat) = [] → ([1] : List Nat) = [] → nlevenshteinPy ([0, 1] : List Nat) [1] 2 = 0) :=
  nlevenshtein_normalization_bounds [0, 1] [1] 2 (Or.inr rfl)

end CDistance

namespace CDistance

variable {α : Type} [DecidableEq α]

theorem foldShapes_aux_le (t ld2 : Bool) (a b : List α) :
    ∀ (mos : List (EOp × EOp)) (r : Nat),
      mos.foldl
        (fun r mo =>
          match runShape t ld2 mo a b with
          | some c => if c < r then c else r
          | none => r) r ≤ r := by
  intro mos
  induction mos with
  | nil => intro r; simp
  | cons mo mos ih =>
    intro r
    rw [List.foldl_cons]
    cases h : runShape t ld2 mo a b with
    | none => simp only [h]; exact ih r
    | some c =>
      simp only [h]
      by_cases hc : c < r
      · rw [if_pos hc]
        exact le_trans (ih c) (by omega)
      · rw [if_neg hc]
        exact ih r

theorem foldShapes_le (t ld2 : Bool) (a b : List α) (mos : List (EOp × EOp)) :
    foldShapes t ld2 a b mos ≤ 3 :=
  foldShapes_aux_le t ld2 a b mos 3

theorem fastcomp_range (t : Bool) (s1 s2 : List α) :
    fastcomp t s1 s2 = -1 ∨ (0 ≤ fastcomp t s1 s2 ∧ fastcomp t s1 s2 ≤ 2) := by
  simp only [fastcomp]
  by_cases hld : 2 < (if s1.length < s2.length then s2 else s1).length -
      (if s1.length < s2.length then s1 else s2).length
  · rw [if_pos hld]
    left
    rfl
  · rw [if_neg hld]
    have hle := foldShapes_le t
      (decide ((if s1.length < s2.length then s2 else s1).length -
        (if s1.length < s2.length then s1 else s2).length = 2))
      (if s1.length < s2.length then s2 else s1)
      (if s1.length < s2.length then s1 else s2)
      (shapesFor ((if s1.length < s2.length then s2 else s1).length -
        (if s1.length < s2.length then s1 else s2).length))
    by_cases h3 : foldShapes t
        (decide ((if s1.length < s2.length then s2 else s1).length -
          (if s1.length < s2.length then s1 else s2).length = 2))
        (if s1.length < s2.length then s2 else s1)
        (if s1.length < s2.length then s1 else s2)
        (shapesFor ((if s1.length < s2.length then s2 else s1).length -
          (if s1.length < s2.length then s1 else s2).length)) = 3
    · rw [if_pos h3]
      left
      rfl
    · rw [if_neg h3]
      right
      constructor
      · exact Int.natCast_nonneg _
      · exact_mod_cast (by omega : _ ≤ 2)

theorem levenshtein_ne_sentinel (s1 s2 : List α) (k g : Int)
    (h : levenshtein s1 s2 k g ≠ -1) : levenshtein s1 s2 k g = (lev s1 s2 : Int) := by
  by_cases hk : 0 ≤ k
  · rw [levenshtein_capped s1 s2 k g hk] at h ⊢
    by_cases hle : (lev s1 s2 : Int) ≤ k
    · rw [if_pos hle]
    · rw [if_neg hle] at h
      exact absurd rfl h
  · exact levenshtein_neg s1 s2 k g (by omega)

end CDistance

namespace CDistance

variable {α : Type} [DecidableEq α]

/-- C9: Streaming filter semantics for a finite candidate stream and
infallible element equality: `ilevenshtein` yields, in source order, exactly
the pairs whose capped distance is not the -1 sentinel (and every yielded
distance is the true distance, never a sentinel), and `ifast_comp` yields
exactly the pairs whose fastcomp result is not -1, every yielded value being
0, 1 or 2. -/
theorem streaming_filter_semantics (ref : List α) (k g : Int) (t : Bool) (cands : List (List α)) :
    ilevenshteinAll ref k g cands =
      cands.filterMap (fun c =>
        if levenshtein ref c k g ≠ -1 then some (levenshtein ref c k g, c) else none) ∧
    (∀ p ∈ ilevenshteinAll ref k g cands, p.1 = (lev ref p.2 : Int) ∧ 0 ≤ p.1 ∧ p.1 ≠ -1) ∧
    ifastcompAll t ref cands =
      cands.filterMap (fun c =>
        if fastcomp t ref c ≠ -1 then some (fastcomp t ref c, c) else none) ∧
    (∀ p ∈ ifastcompAll t ref cands, p.1 = 0 ∨ p.1 = 1 ∨ p.1 = 2) := by
  refine ⟨?_, ?_, ?_, ?_⟩
  · induction cands with
    | nil => rfl
    | cons c cs ih =>
      rw [ilevenshteinAll, List.filterMap_cons]
      by_cases hd : levenshtein ref c k g ≠ -1
      · rw [if_pos hd, if_pos hd, ih]
      · rw [if_neg hd, if_neg hd, ih]
  · induction cands with
    | nil => intro p hp; simp [ilevenshteinAll] at hp
    | cons c cs ih =>
      intro p hp
      rw [ilevenshteinAll] at hp
      by_cases hd : levenshtein ref c k g ≠ -1
      · rw [if_pos hd] at hp
        rcases List.mem_cons.mp hp with rfl | hp'
        · refine ⟨levenshtein_ne_sentinel ref c k g hd, ?_, hd⟩
          rw [levenshtein_ne_sentinel ref c k g hd]
          exact Int.natCast_nonneg _
        · exact ih p hp'
      · rw [if_neg hd] at hp
        exact ih p hp
  · induction cands with
    | nil => rfl
    | cons c cs ih =>
      rw [ifastcompAll, List.filterMap_cons]
      by_cases hd : fastcomp t ref c ≠ -1
      · rw [if_pos hd, if_pos hd, ih]
      · rw [if_neg hd, if_neg hd, ih]
  · induction cands with
    | nil => intro p hp; simp [ifastcompAll] at hp
    | cons c cs ih =>
      intro p hp
      rw [ifastcompAll] at hp
      by_cases hd : fastcomp t ref c ≠ -1
      · rw [if_pos hd] at hp
        rcases List.mem_cons.mp hp with rfl | hp'
        · rcases fastcomp_range t ref c with h | h
          · exact absurd h hd
          · omega
        · exact ih p hp'
      · rw [if_neg hd] at hp
        exact ih p hp

theorem streaming_filter_semantics_witness :
    ilevenshteinAll ([0, 1] : List Nat) 1 0 [[0], [5, 6, 7], [0, 1]] =
      ([[0], [5, 6, 7], [0, 1]] : List (List Nat)).filterMap (fun c =>
        if levenshtein ([0, 1] : List Nat) c 1 0 ≠ -1 then
          some (levenshtein ([0, 1] : List Nat) c 1 0, c) else none) ∧
    (∀ p ∈ ilevenshteinAll ([0, 1] : List Nat) 1 0 [[0], [5, 6, 7], [0, 1]],
      p.1 = (lev ([0, 1] : List Nat) p.2 : Int) ∧ 0 ≤ p.1 ∧ p.1 ≠ -1) ∧
    ifastcompAll false ([0, 1] : List Nat) [[0], [5, 6, 7], [0, 1]] =
      ([[0], [5, 6, 7], [0, 1]] : List (List Nat)).filterMap (fun c =>
        if fastcomp false ([0, 1] : List Nat) c ≠ -1 then
          some (fastcomp false ([0, 1] : List Nat) c, c) else none) ∧
    (∀ p ∈ ifastcompAll false ([0, 1] : List Nat) [[0], [5, 6, 7], [0, 1]],
      p.1 = 0 ∨ p.1 = 1 ∨ p.1 = 2) :=
  streaming_filter_semantics [0, 1] 1 0 false [[0], [5, 6, 7], [0, 1]]

end CDistance

namespace CDistance

/-- C5: the positions produced by `lcsubstrings_py(positions=True)` are NOT
translated back to caller order when the operands are swapped: for
seq1 = [1], seq2 = [0, 1] (len1 < len2, so the wrapper swaps) the result is
(1, [(1, 0)]), whose first component 1 cannot even start a slice of length 1
inside the caller's seq1 (length 1); the caller-order answer promised by the
docstring, "(start pos in seq1, start pos in seq2)", would be (1, [(0, 1)]),
as witnessed by the equal slices in the second conjunct. -/
theorem lcsubstrings_positions_not_unswapped :
    lcsubstringsPy ([1] : List Nat) [0, 1] = (1, [(1, 0)]) ∧
    (([1] : List Nat).drop 0).take 1 = (([0, 1] : List Nat).drop 1).take 1 ∧
    ¬((1 : Int) + 1 ≤ ((([1] : List Nat)).length : Int)) := by
  decide

/-- C6: error-code conflation in the nlevenshtein method-1 path. When the
scratch allocation inside the raw engine fails, `levenshtein` returns -2 and
`levenshtein_py` correctly raises MemoryError; but `nlevenshtein` passes the
-2 through unchanged while `nlevenshtein_py` decodes errors by its own
convention (-1 = allocation failure), so the caller sees the generic
comparison-failure outcome instead of OutOfMemory (first conjunct). The
method-2 allocation path and the comparison-failure path are mapped
correctly (last two conjuncts). -/
theorem nlevenshtein_method1_error_conflation :
    nlevenshteinPyE (fun a b : Nat => some (decide (a = b))) false true [0] [1] 1 =
      PyOutcome.otherError ∧
    levenshteinPyE (fun a b : Nat => some (decide (a = b))) false [0] [1] (-1) 0 =
      PyOutcome.memoryError ∧
    nlevenshteinPyE (fun a b : Nat => some (decide (a = b))) false true [0] [1] 2 =
      PyOutcome.memoryError ∧
    nlevenshteinPyE (fun _ _ : Nat => (none : Option Bool)) true true [0] [1] 1 =
      PyOutcome.otherError := by
  decide

end CDistance

namespace CDistance

variable {α : Type} [DecidableEq α]

theorem cpl_nil_left (v : List α) : cpl ([] : List α) v = 0 := by cases v <;> rfl

theorem cpl_nil_right (u : List α) : cpl u ([] : List α) = 0 := by cases u <;> rfl

theorem cpl_cons (x y : α) (u v : List α) :
    cpl (x :: u) (y :: v) = if x = y then cpl u v + 1 else 0 := rfl

theorem cpl_le_left : ∀ u v : List α, cpl u v ≤ u.length
  | [], v => by rw [cpl_nil_left]; exact Nat.zero_le _
  | _ :: _, [] => by rw [cpl_nil_right]; exact Nat.zero_le _
  | x :: u, y :: v => by
      rw [cpl_cons]
      by_cases h : x = y
      · rw [if_pos h]
        have := cpl_le_left u v
        simp only [List.length_cons]
        omega
      · rw [if_neg h]; exact Nat.zero_le _

theorem cpl_le_right : ∀ u v : List α, cpl u v ≤ v.length
  | [], v => by rw [cpl_nil_left]; exact Nat.zero_le _
  | _ :: _, [] => by rw [cpl_nil_right]; exact Nat.zero_le _
  | x :: u, y :: v => by
      rw [cpl_cons]
      by_cases h : x = y
      · rw [if_pos h]
        have := cpl_le_right u v
        simp only [List.length_cons]
        omega
      · rw [if_neg h]; exact Nat.zero_le _

theorem cpl_take_eq : ∀ u v : List α, u.take (cpl u v) = v.take (cpl u v)
  | [], v => by rw [cpl_nil_left]; rfl
  | _ :: _, [] => by rw [cpl_nil_right]; rfl
  | x :: u, y :: v => by
      rw [cpl_cons]
      by_cases h : x = y
      · rw [if_pos h, List.take_succ_cons, List.take_succ_cons, h, cpl_take_eq u v]
      · rw [if_neg h]; rfl

theorem le_cpl_of_take_eq :
    ∀ (l : Nat) (u v : List α), l ≤ u.length → u.take l = v.take l → l ≤ cpl u v
  | 0, _, _, _, _ => Nat.zero_le _
  | l + 1, [], v, h, _ => by simp at h
  | l + 1, x :: u, [], _, he => by simp [List.take_succ_cons] at he
  | l + 1, x :: u, y :: v, h, he => by
      rw [List.take_succ_cons, List.take_succ_cons, List.cons.injEq] at he
      obtain ⟨rfl, he'⟩ := he
      rw [cpl_cons, if_pos rfl]
      have hlen : l ≤ u.length := by
        simp only [List.length_cons] at h; omega
      have := le_cpl_of_take_eq l u v hlen he'
      omega

theorem csuf_nil_left (v : List α) : csuf ([] : List α) v = 0 := by
  simp [csuf, cpl_nil_left]

theorem csuf_nil_right (u : List α) : csuf u ([] : List α) = 0 := by
  simp [csuf, cpl_nil_right]

theorem csuf_le_left (u v : List α) : csuf u v ≤ u.length := by
  have := cpl_le_left u.reverse v.reverse
  simpa [csuf] using this

theorem csuf_le_right (u v : List α) : csuf u v ≤ v.length := by
  have := cpl_le_right u.reverse v.reverse
  simpa [csuf] using this

theorem csuf_snoc (x y : α) (u v : List α) :
    csuf (u ++ [x]) (v ++ [y]) = if x = y then csuf u v + 1 else 0 := by
  simp only [csuf, List.reverse_append, List.reverse_cons, List.reverse_nil,
    List.nil_append, List.singleton_append]
  exact cpl_cons x y u.reverse v.reverse

theorem csuf_suffix_eq (u v : List α) :
    u.drop (u.length - csuf u v) = v.drop (v.length - csuf u v) := by
  have h := cpl_take_eq u.reverse v.reverse
  rw [List.take_reverse, List.take_reverse] at h
  have h2 := List.reverse_inj.mpr h
  simpa [csuf] using h2

theorem le_csuf_of_suffix_eq (l : Nat) (u v : List α) (hu : l ≤ u.length)
    (hv : l ≤ v.length) (h : u.drop (u.length - l) = v.drop (v.length - l)) :
    l ≤ csuf u v := by
  simp only [csuf]
  apply le_cpl_of_take_eq l _ _ (by simpa using hu)
  rw [List.take_reverse, List.take_reverse, h]

theorem runRow_length (u : List α) : ∀ (ys v : List α), (runRow u v ys).length = ys.length
  | [], _ => rfl
  | y :: ys, v => by
      simp only [runRow, List.length_cons, runRow_length u ys (v ++ [y])]

theorem cellsFrom_width_zero : ∀ (k i : Nat), cellsFrom 0 i k = []
  | 0, _ => rfl
  | k + 1, i => by
      simp only [cellsFrom, List.range_zero, List.map_nil, List.nil_append]
      exact cellsFrom_width_zero k (i + 1)

theorem mem_cellsFrom (m : Nat) :
    ∀ (k i : Nat) (p : Nat × Nat), p ∈ cellsFrom m i k ↔ i ≤ p.1 ∧ p.1 < i + k ∧ p.2 < m
  | 0, i, p => by simp only [cellsFrom, List.not_mem_nil, false_iff]; omega
  | k + 1, i, p => by
      obtain ⟨p1, p2⟩ := p
      simp only [cellsFrom, List.mem_append, List.mem_map, List.mem_range,
        mem_cellsFrom m k (i + 1) (p1, p2), Prod.mk.injEq]
      constructor
      · rintro (⟨j, hj, h1, h2⟩ | ⟨h1, h2, h3⟩) <;> omega
      · rintro ⟨h1, h2, h3⟩
        by_cases hp : p1 = i
        · exact Or.inl ⟨p2, h3, hp.symm, rfl⟩
        · exact Or.inr ⟨by omega, by omega, h3⟩

theorem maxStep_le (f : Nat × Nat → Nat) (acc : Int) (p : Nat × Nat) :
    acc ≤ maxStep f acc p := by
  unfold maxStep; split
  · exact le_refl _
  · exact le_max_left _ _

theorem le_maxFrom (f : Nat × Nat → Nat) : ∀ (L : List (Nat × Nat)) (m : Int), m ≤ maxFrom f L m
  | [], m => le_refl m
  | p :: L, m => le_trans (maxStep_le f m p) (le_maxFrom f L (maxStep f m p))

theorem maxFrom_ge_cell (f : Nat × Nat → Nat) :
    ∀ (L : List (Nat × Nat)) (m : Int) (p : Nat × Nat), p ∈ L → f p ≠ 0 →
      ((f p : Nat) : Int) ≤ maxFrom f L m
  | q :: L, m, p, hp, hf => by
      rcases List.mem_cons.mp hp with h | h
      · subst h
        refine le_trans ?_ (le_maxFrom f L (maxStep f m p))
        unfold maxStep; rw [if_neg hf]
        exact le_max_right _ _
      · exact maxFrom_ge_cell f L (maxStep f m q) p h hf

theorem maxFrom_cases (f : Nat × Nat → Nat) :
    ∀ (L : List (Nat × Nat)) (m : Int),
      maxFrom f L m = m ∨ ∃ p ∈ L, f p ≠ 0 ∧ ((f p : Nat) : Int) = maxFrom f L m
  | [], m => Or.inl rfl
  | q :: L, m => by
      have hstep : maxFrom f (q :: L) m = maxFrom f L (maxStep f m q) := rfl
      rcases maxFrom_cases f L (maxStep f m q) with h | ⟨p, hp, hf, he⟩
      · rw [hstep, h]
        unfold maxStep
        by_cases hq : f q = 0
        · rw [if_pos hq]; exact Or.inl rfl
        · rw [if_neg hq]
          rcases max_choice m ((f q : Nat) : Int) with hm | hm
          · rw [hm]; exact Or.inl rfl
          · rw [hm]
            exact Or.inr ⟨q, List.mem_cons_self q L, hq, rfl⟩
      · exact Or.inr ⟨p, List.mem_cons_of_mem q hp, hf, by rw [hstep, he]⟩

theorem maxFrom_const (f : Nat × Nat → Nat) :
    ∀ (L : List (Nat × Nat)) (m : Int), (∀ p ∈ L, f p = 0) → maxFrom f L m = m
  | [], _, _ => rfl
  | q :: L, m, h => by
      have hstep : maxFrom f (q :: L) m = maxFrom f L (maxStep f m q) := rfl
      have hq : maxStep f m q = m := by
        unfold maxStep; rw [if_pos (h q (List.mem_cons_self q L))]
      rw [hstep, hq]
      exact maxFrom_const f L m (fun p hp => h p (List.mem_cons_of_mem q hp))

end CDistance

namespace CDistance

variable {α : Type} [DecidableEq α]

theorem lcsFold_cons (f : Nat × Nat → Nat) (q : Nat × Nat) (L : List (Nat × Nat))
    (ms : Int × List (Nat × Nat)) :
    lcsFold f (q :: L) ms = lcsFold f L (if f q = 0 then ms else lcsUpd q.1 q.2 (f q) ms) := rfl

theorem lcsFold_closed (f : Nat × Nat → Nat) :
    ∀ (L : List (Nat × Nat)) (m : Int) (s : List (Nat × Nat)),
    lcsFold f L (m, s) =
      (maxFrom f L m,
       (if maxFrom f L m = m then s else []) ++
         L.filter (fun p => decide (f p ≠ 0) && decide (((f p : Nat) : Int) = maxFrom f L m)))
  | [], m, s => by
      simp [lcsFold, maxFrom]
  | q :: L, m, s => by
      have hstep : maxFrom f (q :: L) m = maxFrom f L (maxStep f m q) := rfl
      rw [lcsFold_cons]
      by_cases hq : f q = 0
      · rw [if_pos hq]
        have hms : maxStep f m q = m := by unfold maxStep; rw [if_pos hq]
        rw [lcsFold_closed f L m s, hstep, hms,
          List.filter_cons_of_neg (by simp [hq])]
      · rw [if_neg hq]
        have hms : maxStep f m q = max m ((f q : Nat) : Int) := by
          unfold maxStep; rw [if_neg hq]
        unfold lcsUpd
        by_cases hlt : m < ((f q : Nat) : Int)
        · rw [if_pos hlt]
          have hmax : maxStep f m q = ((f q : Nat) : Int) := by
            rw [hms]; exact max_eq_right (le_of_lt hlt)
          have hM : maxFrom f (q :: L) m = maxFrom f L ((f q : Nat) : Int) := by
            rw [hstep, hmax]
          have hge : ((f q : Nat) : Int) ≤ maxFrom f L ((f q : Nat) : Int) :=
            le_maxFrom f L _
          have hMne : ¬(maxFrom f L ((f q : Nat) : Int) = m) := by
            intro hc; rw [hc] at hge; omega
          rw [lcsFold_closed f L ((f q : Nat) : Int) [q], hM, if_neg hMne]
          by_cases hqM : maxFrom f L ((f q : Nat) : Int) = ((f q : Nat) : Int)
          · rw [if_pos hqM, List.filter_cons_of_pos (by simp [hq, hqM])]
            simp
          · rw [if_neg hqM,
              List.filter_cons_of_neg (by simp [hq]; intro hc; exact hqM hc.symm)]
        · rw [if_neg hlt]
          by_cases heq : ((f q : Nat) : Int) = m
          · rw [if_pos heq]
            have hmax : maxStep f m q = m := by
              rw [hms, heq]; exact max_self m
            have hM : maxFrom f (q :: L) m = maxFrom f L m := by rw [hstep, hmax]
            rw [lcsFold_closed f L m (s ++ [q]), hM]
            by_cases hMm : maxFrom f L m = m
            · rw [if_pos hMm, if_pos hMm,
                List.filter_cons_of_pos (by simp [hq, hMm, heq])]
              simp
            · rw [if_neg hMm, if_neg hMm,
                List.filter_cons_of_neg
                  (by simp [hq]; intro hc; rw [heq] at hc; exact hMm hc.symm)]
          · rw [if_neg heq]
            have hmax : maxStep f m q = m := by
              rw [hms]; exact max_eq_left (by omega)
            have hM : maxFrom f (q :: L) m = maxFrom f L m := by rw [hstep, hmax]
            rw [lcsFold_closed f L m s, hM]
            have hMge : m ≤ maxFrom f L m := le_maxFrom f L m
            rw [List.filter_cons_of_neg (by simp [hq]; intro hc; omega)]

end CDistance

namespace CDistance

variable {α : Type} [DecidableEq α]

theorem lcsRowC_spec (x : α) (u us' : List α) :
    ∀ (rest v : List α) (cs : List Nat) (last : Nat) (ms : Int × List (Nat × Nat)),
    cs.length = rest.length →
    (u = [] ∨ cs = runRow u v rest) →
    (v = [] ∨ u = [] ∨ last = csuf u v) →
    (lcsRowC x u.length v.length rest cs last ms).1 = runRow (u ++ [x]) v rest ∧
    (lcsRowC x u.length v.length rest cs last ms).2.2 =
      lcsFold (runEndF (u ++ x :: us') (v ++ rest))
        ((List.range rest.length).map (fun t => (u.length, v.length + t))) ms
  | [], v, cs, last, ms, hlen, _, _ => by
      have hcs : cs = [] := List.length_eq_zero.mp (by simpa using hlen)
      subst hcs
      exact ⟨rfl, rfl⟩
  | y :: ys, v, cs, last, ms, hlen, hcs, hlast => by
      obtain ⟨old, cs', rfl⟩ : ∃ old cs', cs = old :: cs' := by
        cases cs with
        | nil => simp at hlen
        | cons o c => exact ⟨o, c, rfl⟩
      have hlen' : cs'.length = ys.length := by
        simp only [List.length_cons] at hlen; omega
      have hvl : (v ++ [y]).length = v.length + 1 := by simp
      have happ : (v ++ [y]) ++ ys = v ++ y :: ys := by simp
      have hsnoc := csuf_snoc x y u v
      have hrEF : runEndF (u ++ x :: us') (v ++ y :: ys) (u.length, v.length)
          = csuf (u ++ [x]) (v ++ [y]) := by
        simp only [runEndF]
        rw [List.take_append, List.take_append]
        simp only [List.take_succ_cons, List.take_zero]
      have hrunRow : runRow (u ++ [x]) v (y :: ys)
          = csuf (u ++ [x]) (v ++ [y]) :: runRow (u ++ [x]) (v ++ [y]) ys := rfl
      have hcsR : u = [] ∨ cs' = runRow u (v ++ [y]) ys := by
        rcases hcs with h | h
        · exact Or.inl h
        · right
          rw [show runRow u v (y :: ys)
              = csuf u (v ++ [y]) :: runRow u (v ++ [y]) ys from rfl,
            List.cons.injEq] at h
          exact h.2
      have holdR : u = [] ∨ old = csuf u (v ++ [y]) := by
        rcases hcs with h | h
        · exact Or.inl h
        · right
          rw [show runRow u v (y :: ys)
              = csuf u (v ++ [y]) :: runRow u (v ++ [y]) ys from rfl,
            List.cons.injEq] at h
          exact h.1
      have hlastR : (v ++ [y]) = [] ∨ u = [] ∨ old = csuf u (v ++ [y]) := by
        rcases holdR with h | h
        · exact Or.inr (Or.inl h)
        · exact Or.inr (Or.inr h)
      have hcells : (List.range (ys.length + 1)).map (fun t => (u.length, v.length + t))
          = (u.length, v.length)
            :: (List.range ys.length).map (fun t => (u.length, v.length + 1 + t)) := by
        rw [List.range_succ_eq_map, List.map_cons, List.map_map, Nat.add_zero]
        congr 1
        refine congrArg (fun f => List.map f (List.range ys.length)) ?_
        funext t
        simp only [Function.comp_apply, Prod.mk.injEq]
        exact ⟨trivial, by omega⟩
      by_cases hxy : x = y
      · have hcell : (if u.length = 0 ∨ v.length = 0 then 1 else last + 1)
            = csuf (u ++ [x]) (v ++ [y]) := by
          rw [hsnoc, if_pos hxy]
          by_cases hu : u = []
          · have h0 : csuf u v = 0 := by rw [hu]; exact csuf_nil_left v
            rw [if_pos (Or.inl (by rw [hu]; rfl)), h0]
          · by_cases hv : v = []
            · have h0 : csuf u v = 0 := by rw [hv]; exact csuf_nil_right u
              rw [if_pos (Or.inr (by rw [hv]; rfl)), h0]
            · have hl : last = csuf u v := by
                rcases hlast with h | h | h
                · exact absurd h hv
                · exact absurd h hu
                · exact h
              have hcond : ¬(u.length = 0 ∨ v.length = 0) := by
                simp only [List.length_eq_zero, not_or]
                exact ⟨hu, hv⟩
              rw [if_neg hcond, hl]
        obtain ⟨ih1, ih2⟩ := lcsRowC_spec x u us' ys (v ++ [y]) cs' old
          (lcsUpd u.length v.length
            (if u.length = 0 ∨ v.length = 0 then 1 else last + 1) ms)
          hlen' hcsR hlastR
        rw [hvl] at ih1 ih2
        rw [happ] at ih2
        have hfq : runEndF (u ++ x :: us') (v ++ y :: ys) (u.length, v.length)
            = (if u.length = 0 ∨ v.length = 0 then 1 else last + 1) := by
          rw [hrEF, ← hcell]
        have hfne : ¬(runEndF (u ++ x :: us') (v ++ y :: ys) (u.length, v.length) = 0) := by
          rw [hfq]; split <;> omega
        simp only [lcsRowC]
        rw [if_pos hxy]
        constructor
        · show (if u.length = 0 ∨ v.length = 0 then 1 else last + 1) ::
              (lcsRowC x u.length (v.length + 1) ys cs' old
                (lcsUpd u.length v.length
                  (if u.length = 0 ∨ v.length = 0 then 1 else last + 1) ms)).1
            = runRow (u ++ [x]) v (y :: ys)
          rw [hrunRow, ih1, hcell]
        · show (lcsRowC x u.length (v.length + 1) ys cs' old
              (lcsUpd u.length v.length
                (if u.length = 0 ∨ v.length = 0 then 1 else last + 1) ms)).2.2 = _
          simp only [List.length_cons]
          rw [ih2, hcells, lcsFold_cons, if_neg hfne, hfq]
      · have hcell0 : csuf (u ++ [x]) (v ++ [y]) = 0 := by rw [hsnoc, if_neg hxy]
        obtain ⟨ih1, ih2⟩ := lcsRowC_spec x u us' ys (v ++ [y]) cs' old ms hlen' hcsR hlastR
        rw [hvl] at ih1 ih2
        rw [happ] at ih2
        have hf0 : runEndF (u ++ x :: us') (v ++ y :: ys) (u.length, v.length) = 0 := by
          rw [hrEF]; exact hcell0
        simp only [lcsRowC]
        rw [if_neg hxy]
        constructor
        · show (0 : Nat) :: (lcsRowC x u.length (v.length + 1) ys cs' old ms).1
            = runRow (u ++ [x]) v (y :: ys)
          rw [hrunRow, hcell0, ih1]
        · show (lcsRowC x u.length (v.length + 1) ys cs' old ms).2.2 = _
          simp only [List.length_cons]
          rw [ih2, hcells, lcsFold_cons, if_pos hf0]

end CDistance

namespace CDistance

variable {α : Type} [DecidableEq α]

theorem lcsOuterC_spec (b : List α) :
    ∀ (us u : List α) (col : List Nat) (last : Nat) (ms : Int × List (Nat × Nat)),
    col.length = b.length →
    (u = [] ∨ col = runRow u [] b) →
    lcsOuterC b u.length us col last ms =
      lcsFold (runEndF (u ++ us) b) (cellsFrom b.length u.length us.length) ms
  | [], _, _, _, _, _, _ => rfl
  | x :: xs, u, col, last, ms, hlen, hcol => by
      have hrow := lcsRowC_spec x u xs b [] col last ms hlen hcol (Or.inl rfl)
      simp only [List.length_nil, List.nil_append, Nat.zero_add] at hrow
      obtain ⟨h1, h2⟩ := hrow
      have hlen' : (lcsRowC x u.length 0 b col last ms).1.length = b.length := by
        rw [h1]; exact runRow_length (u ++ [x]) b []
      have hul : (u ++ [x]).length = u.length + 1 := by simp
      have happ2 : (u ++ [x]) ++ xs = u ++ x :: xs := by simp
      have hstep : lcsOuterC b u.length (x :: xs) col last ms
          = lcsOuterC b (u.length + 1) xs (lcsRowC x u.length 0 b col last ms).1
              (lcsRowC x u.length 0 b col last ms).2.1
              (lcsRowC x u.length 0 b col last ms).2.2 := rfl
      rw [hstep, ← hul,
        lcsOuterC_spec b xs (u ++ [x]) (lcsRowC x u.length 0 b col last ms).1
          (lcsRowC x u.length 0 b col last ms).2.1
          (lcsRowC x u.length 0 b col last ms).2.2 hlen' (Or.inr h1),
        h2, happ2, hul]
      show lcsFold (runEndF (u ++ x :: xs) b) (cellsFrom b.length (u.length + 1) xs.length) _
          = lcsFold (runEndF (u ++ x :: xs) b) (cellsFrom b.length u.length (xs.length + 1)) ms
      rw [show cellsFrom b.length u.length (xs.length + 1)
          = (List.range b.length).map (fun j => (u.length, j))
            ++ cellsFrom b.length (u.length + 1) xs.length from rfl]
      simp only [lcsFold, List.foldl_append]

theorem lcsubstrings_eq_fold (a b : List α) (hb : b ≠ []) :
    lcsubstrings a b = lcsFold (runEndF a b) (cellsFrom b.length 0 a.length) (-1, []) := by
  have h := lcsOuterC_spec b a [] (List.range b.length) 0 (-1, []) (by simp) (Or.inl rfl)
  simp only [List.length_nil, List.nil_append] at h
  unfold lcsubstrings
  rw [if_neg (fun hc => hb (List.length_eq_zero.mp hc))]
  exact h

theorem lcsubstrings_closed (a b : List α) (hb : b ≠ []) :
    lcsubstrings a b =
      (maxFrom (runEndF a b) (cellsFrom b.length 0 a.length) (-1),
       (cellsFrom b.length 0 a.length).filter
         (fun p => decide (runEndF a b p ≠ 0) &&
           decide (((runEndF a b p : Nat) : Int)
             = maxFrom (runEndF a b) (cellsFrom b.length 0 a.length) (-1)))) := by
  rw [lcsubstrings_eq_fold a b hb, lcsFold_closed, ite_self, List.nil_append]

end CDistance

namespace CDistance

variable {α : Type} [DecidableEq α]

theorem runEndF_le_left (a b : List α) (p : Nat × Nat) : runEndF a b p ≤ p.1 + 1 :=
  le_trans (csuf_le_left _ _) (List.length_take_le _ _)

theorem runEndF_le_right (a b : List α) (p : Nat × Nat) : runEndF a b p ≤ p.2 + 1 :=
  le_trans (csuf_le_right _ _) (List.length_take_le _ _)

theorem runEndF_slice_eq (a b : List α) (p : Nat × Nat) (h1 : p.1 + 1 ≤ a.length)
    (h2 : p.2 + 1 ≤ b.length) :
    (a.drop (p.1 + 1 - runEndF a b p)).take (runEndF a b p)
      = (b.drop (p.2 + 1 - runEndF a b p)).take (runEndF a b p) := by
  have hle1 := runEndF_le_left a b p
  have hle2 := runEndF_le_right a b p
  have hs := csuf_suffix_eq (a.take (p.1 + 1)) (b.take (p.2 + 1))
  have hul : (a.take (p.1 + 1)).length = p.1 + 1 := by
    rw [List.length_take]; exact Nat.min_eq_left h1
  have hvl : (b.take (p.2 + 1)).length = p.2 + 1 := by
    rw [List.length_take]; exact Nat.min_eq_left h2
  rw [hul, hvl, List.drop_take, List.drop_take] at hs
  simp only [runEndF] at hle1 hle2 ⊢
  have e1 : p.1 + 1 - (p.1 + 1 - csuf (a.take (p.1 + 1)) (b.take (p.2 + 1)))
      = csuf (a.take (p.1 + 1)) (b.take (p.2 + 1)) := by omega
  have e2 : p.2 + 1 - (p.2 + 1 - csuf (a.take (p.1 + 1)) (b.take (p.2 + 1)))
      = csuf (a.take (p.1 + 1)) (b.take (p.2 + 1)) := by omega
  rw [e1, e2] at hs
  exact hs

theorem runEndF_isCommonSub (a b : List α) (p : Nat × Nat) (h1 : p.1 < a.length)
    (h2 : p.2 < b.length) : IsCommonSub a b (runEndF a b p) := by
  have hle1 := runEndF_le_left a b p
  have hle2 := runEndF_le_right a b p
  refine ⟨p.1 + 1 - runEndF a b p, p.2 + 1 - runEndF a b p, by omega, by omega, ?_⟩
  exact runEndF_slice_eq a b p (by omega) (by omega)

theorem isCommonSub_mono (a b : List α) (l l' : Nat) (hle : l' ≤ l)
    (h : IsCommonSub a b l) : IsCommonSub a b l' := by
  obtain ⟨s1, s2, h1, h2, he⟩ := h
  refine ⟨s1, s2, by omega, by omega, ?_⟩
  have ha : (a.drop s1).take l' = ((a.drop s1).take l).take l' := by
    rw [List.take_take, Nat.min_eq_left hle]
  rw [ha, he, List.take_take, Nat.min_eq_left hle]

theorem exists_cell_of_isCommonSub (a b : List α) (l : Nat) (hl : 1 ≤ l)
    (h : IsCommonSub a b l) :
    ∃ p : Nat × Nat, p.1 < a.length ∧ p.2 < b.length ∧ l ≤ runEndF a b p := by
  obtain ⟨s1, s2, h1, h2, he⟩ := h
  refine ⟨(s1 + l - 1, s2 + l - 1), by omega, by omega, ?_⟩
  simp only [runEndF]
  have e1 : s1 + l - 1 + 1 = s1 + l := by omega
  have e2 : s2 + l - 1 + 1 = s2 + l := by omega
  rw [e1, e2]
  apply le_csuf_of_suffix_eq
  · rw [List.length_take]; omega
  · rw [List.length_take]; omega
  · rw [List.length_take, Nat.min_eq_left (by omega : s1 + l ≤ a.length),
      List.length_take, Nat.min_eq_left (by omega : s2 + l ≤ b.length)]
    have e3 : s1 + l - l = s1 := by omega
    have e4 : s2 + l - l = s2 := by omega
    rw [e3, e4, List.drop_take, List.drop_take]
    have e5 : s1 + l - s1 = l := by omega
    have e6 : s2 + l - s2 = l := by omega
    rw [e5, e6]
    exact he

theorem isCommonSub_one_iff (a b : List α) :
    IsCommonSub a b 1 ↔ ∃ t, t ∈ a ∧ t ∈ b := by
  constructor
  · rintro ⟨s1, s2, h1, h2, he⟩
    have ha : a.drop s1 ≠ [] := by
      intro hc
      have := congrArg List.length hc
      simp only [List.length_drop, List.length_nil] at this
      omega
    obtain ⟨c, cs, hcc⟩ := List.exists_cons_of_ne_nil ha
    have hb2 : b.drop s2 ≠ [] := by
      intro hc
      have := congrArg List.length hc
      simp only [List.length_drop, List.length_nil] at this
      omega
    obtain ⟨d, ds, hdd⟩ := List.exists_cons_of_ne_nil hb2
    rw [hcc, hdd] at he
    simp only [List.take_succ_cons, List.take_zero, List.cons.injEq] at he
    refine ⟨c, ?_, ?_⟩
    · have hmem : c ∈ a.drop s1 := by rw [hcc]; exact List.mem_cons_self c cs
      exact List.drop_subset _ _ hmem
    · have hmem : d ∈ b.drop s2 := by rw [hdd]; exact List.mem_cons_self d ds
      rw [he.1]
      exact List.drop_subset _ _ hmem
  · rintro ⟨t, hta, htb⟩
    obtain ⟨i, hi, hai⟩ := List.mem_iff_getElem.mp hta
    obtain ⟨j, hj, hbj⟩ := List.mem_iff_getElem.mp htb
    refine ⟨i, j, by omega, by omega, ?_⟩
    rw [List.drop_eq_getElem_cons hi, List.drop_eq_getElem_cons hj]
    simp only [List.take_succ_cons, List.take_zero]
    rw [hai, hbj]

theorem lcs_M_neg_iff (a b : List α) :
    maxFrom (runEndF a b) (cellsFrom b.length 0 a.length) (-1) = -1 ↔
      ∀ t ∈ a, t ∉ b := by
  constructor
  · intro hM t hta htb
    have h1 : IsCommonSub a b 1 := (isCommonSub_one_iff a b).mpr ⟨t, hta, htb⟩
    obtain ⟨p, hp1, hp2, hpl⟩ := exists_cell_of_isCommonSub a b 1 le_rfl h1
    have hmem : p ∈ cellsFrom b.length 0 a.length := by
      rw [mem_cellsFrom]; exact ⟨Nat.zero_le _, by omega, hp2⟩
    have hge := maxFrom_ge_cell (runEndF a b) _ (-1) p hmem (by omega)
    rw [hM] at hge
    omega
  · intro h
    apply maxFrom_const
    intro p hp
    by_contra hne
    rw [mem_cellsFrom] at hp
    have hsub := runEndF_isCommonSub a b p (by omega) hp.2.2
    have h1 := isCommonSub_mono a b (runEndF a b p) 1 (by omega) hsub
    obtain ⟨t, hta, htb⟩ := (isCommonSub_one_iff a b).mp h1
    exact h t hta htb

theorem lcs_M_pos_spec (a b : List α)
    (hM : 0 < maxFrom (runEndF a b) (cellsFrom b.length 0 a.length) (-1)) :
    IsCommonSub a b (maxFrom (runEndF a b) (cellsFrom b.length 0 a.length) (-1)).toNat ∧
    (∀ l : Nat, IsCommonSub a b l →
      (l : Int) ≤ maxFrom (runEndF a b) (cellsFrom b.length 0 a.length) (-1)) := by
  rcases maxFrom_cases (runEndF a b) (cellsFrom b.length 0 a.length) (-1) with h | ⟨p, hp, hf, he⟩
  · rw [h] at hM; omega
  · constructor
    · rw [← he, Int.toNat_natCast]
      rw [mem_cellsFrom] at hp
      exact runEndF_isCommonSub a b p (by omega) hp.2.2
    · intro l hl
      rcases Nat.eq_zero_or_pos l with rfl | hlpos
      · simp only [Nat.cast_zero]; omega
      · obtain ⟨q, hq1, hq2, hql⟩ := exists_cell_of_isCommonSub a b l hlpos hl
        have hmem : q ∈ cellsFrom b.length 0 a.length := by
          rw [mem_cellsFrom]; exact ⟨Nat.zero_le _, by omega, hq2⟩
        have hge := maxFrom_ge_cell (runEndF a b) _ (-1) q hmem (by omega)
        omega

theorem lcs_M_ne_zero (a b : List α) :
    maxFrom (runEndF a b) (cellsFrom b.length 0 a.length) (-1) ≠ 0 := by
  rcases maxFrom_cases (runEndF a b) (cellsFrom b.length 0 a.length) (-1) with h | ⟨p, _, hf, he⟩
  · rw [h]; omega
  · rw [← he]; omega

end CDistance

namespace CDistance

variable {α : Type} [DecidableEq α]

/-- C3 (corrected): run-length correctness of the `lcsubstrings` engine under
its caller contract len1 >= len2. If the shorter sequence is empty the result
is (0, []). For nonempty seq2 the reported length is -1 — not 0 as claimed —
exactly when the sequences share no common element, and it is never 0; when it
is positive it equals the length of the longest common contiguous substring
(no longer common substring exists); and every returned position pair (i, j)
marks identical slices of exactly that length ending at index i of seq1 and
index j of seq2. -/
theorem lcs_run_length_correctness (a b : List α) (hab : b.length ≤ a.length) :
    (b = [] → lcsubstrings a b = (0, [])) ∧
    (b ≠ [] → ((lcsubstrings a b).1 = -1 ↔ ∀ t ∈ a, t ∉ b)) ∧
    ((lcsubstrings a b).1 = 0 ↔ b = []) ∧
    (0 < (lcsubstrings a b).1 →
      IsCommonSub a b (lcsubstrings a b).1.toNat ∧
      (∀ l : Nat, IsCommonSub a b l → (l : Int) ≤ (lcsubstrings a b).1)) ∧
    (∀ p ∈ (lcsubstrings a b).2, ∃ l : Nat, 0 < l ∧
      (l : Int) = (lcsubstrings a b).1 ∧
      l ≤ p.1 + 1 ∧ l ≤ p.2 + 1 ∧ p.1 < a.length ∧ p.2 < b.length ∧
      (a.drop (p.1 + 1 - l)).take l = (b.drop (p.2 + 1 - l)).take l) := by
  by_cases hb : b = []
  · have h00 : lcsubstrings a b = (0, []) := by
      rw [hb]; simp [lcsubstrings]
    refine ⟨fun _ => h00, fun hbne => absurd hb hbne, ?_, ?_, ?_⟩
    · rw [h00]; simp [hb]
    · rw [h00]; intro hc; simp at hc
    · rw [h00]; intro p hp; simp at hp
  · have hr := lcsubstrings_closed a b hb
    have h1 : (lcsubstrings a b).1
        = maxFrom (runEndF a b) (cellsFrom b.length 0 a.length) (-1) := by rw [hr]
    refine ⟨fun hc => absurd hc hb, fun _ => ?_, ?_, ?_, ?_⟩
    · rw [h1]; exact lcs_M_neg_iff a b
    · rw [h1]
      constructor
      · intro hc; exact absurd hc (lcs_M_ne_zero a b)
      · intro hc; exact absurd hc hb
    · rw [h1]; exact fun hM => lcs_M_pos_spec a b hM
    · intro p hp
      rw [hr] at hp
      dsimp only at hp
      rw [List.mem_filter, mem_cellsFrom] at hp
      simp only [Bool.and_eq_true, decide_eq_true_eq] at hp
      obtain ⟨⟨_, hplt, hp2⟩, hne, heq⟩ := hp
      refine ⟨runEndF a b p, by omega, ?_, runEndF_le_left a b p,
        runEndF_le_right a b p, by omega, hp2, ?_⟩
      · rw [h1]; exact heq
      · exact runEndF_slice_eq a b p (by omega) (by omega)

/-- Witness for C3 at seq1 = [0, 1], seq2 = [1]: the single match is the run of
length 1 ending at indices (1, 0). -/
theorem lcs_run_length_correctness_witness :
    (([1] : List Nat) = [] → lcsubstrings ([0, 1] : List Nat) [1] = (0, [])) ∧
    (([1] : List Nat) ≠ [] →
      ((lcsubstrings ([0, 1] : List Nat) [1]).1 = -1 ↔
        ∀ t ∈ ([0, 1] : List Nat), t ∉ ([1] : List Nat))) ∧
    ((lcsubstrings ([0, 1] : List Nat) [1]).1 = 0 ↔ ([1] : List Nat) = []) ∧
    (0 < (lcsubstrings ([0, 1] : List Nat) [1]).1 →
      IsCommonSub ([0, 1] : List Nat) [1] (lcsubstrings ([0, 1] : List Nat) [1]).1.toNat ∧
      (∀ l : Nat, IsCommonSub ([0, 1] : List Nat) [1] l →
        (l : Int) ≤ (lcsubstrings ([0, 1] : List Nat) [1]).1)) ∧
    (∀ p ∈ (lcsubstrings ([0, 1] : List Nat) [1]).2, ∃ l : Nat, 0 < l ∧
      (l : Int) = (lcsubstrings ([0, 1] : List Nat) [1]).1 ∧
      l ≤ p.1 + 1 ∧ l ≤ p.2 + 1 ∧ p.1 < ([0, 1] : List Nat).length ∧
      p.2 < ([1] : List Nat).length ∧
      (([0, 1] : List Nat).drop (p.1 + 1 - l)).take l
        = (([1] : List Nat).drop (p.2 + 1 - l)).take l) :=
  lcs_run_length_correctness [0, 1] [1] (by decide)

/-- C3 counterexample: for seq1 = [0], seq2 = [1] the sequences share no
common element and the shorter one is nonempty; the engine stores -1 in
*max_len, not 0 as the claim states. -/
theorem lcs_no_common_element_reports_neg_one :
    (lcsubstrings ([0] : List Nat) [1]).1 = -1 ∧
    ¬((lcsubstrings ([0] : List Nat) [1]).1 = 0) := by
  decide

/-- C4: tie enumeration of the lcsubstrings engine. The returned stack is
exactly the scan-ordered list of cells (i, j) whose run length is nonzero and
attains the reported maximum; membership in the stack is equivalent to being
an in-range end-position pair whose run length attains the global maximum, so
every maximal position is present and no smaller one is. -/
theorem lcs_tie_enumeration (a b : List α) (hab : b.length ≤ a.length) :
    ((lcsubstrings a b).2 = (cellsFrom b.length 0 a.length).filter
      (fun p => decide (0 < runEndF a b p) &&
        decide ((runEndF a b p : Int) = (lcsubstrings a b).1))) ∧
    (∀ p : Nat × Nat, p ∈ (lcsubstrings a b).2 ↔
      (p.1 < a.length ∧ p.2 < b.length ∧ 0 < runEndF a b p ∧
        (runEndF a b p : Int) = (lcsubstrings a b).1)) := by
  by_cases hb : b = []
  · have h00 : lcsubstrings a b = (0, []) := by
      rw [hb]; simp [lcsubstrings]
    constructor
    · rw [h00, hb]
      simp only [List.length_nil]
      rw [cellsFrom_width_zero]
      rfl
    · intro p
      rw [h00, hb]
      simp only [List.length_nil]
      constructor
      · intro hp; simp at hp
      · rintro ⟨_, hc, _⟩; omega
  · have hr := lcsubstrings_closed a b hb
    constructor
    · rw [hr]
      dsimp only
      apply List.filter_congr
      intro p _
      congr 1
      exact decide_eq_decide.mpr (Nat.pos_iff_ne_zero.symm)
    · intro p
      rw [hr]
      dsimp only
      rw [List.mem_filter, mem_cellsFrom]
      simp only [Bool.and_eq_true, decide_eq_true_eq]
      constructor
      · rintro ⟨⟨_, hlt, hm⟩, hne, heq⟩
        exact ⟨by omega, hm, by omega, heq⟩
      · rintro ⟨hlt, hm, hpos, heq⟩
        exact ⟨⟨Nat.zero_le _, by omega, hm⟩, by omega, heq⟩

/-- Witness for C4 at seq1 = [1, 0, 1], seq2 = [1]: two runs of length 1 tie
for the maximum, ending at (0, 0) and (2, 0); both are enumerated. -/
theorem lcs_tie_enumeration_witness :
    ((lcsubstrings ([1, 0, 1] : List Nat) [1]).2
      = (cellsFrom ([1] : List Nat).length 0 ([1, 0, 1] : List Nat).length).filter
        (fun p => decide (0 < runEndF ([1, 0, 1] : List Nat) [1] p) &&
          decide ((runEndF ([1, 0, 1] : List Nat) [1] p : Int)
            = (lcsubstrings ([1, 0, 1] : List Nat) [1]).1))) ∧
    (∀ p : Nat × Nat, p ∈ (lcsubstrings ([1, 0, 1] : List Nat) [1]).2 ↔
      (p.1 < ([1, 0, 1] : List Nat).length ∧ p.2 < ([1] : List Nat).length ∧
        0 < runEndF ([1, 0, 1] : List Nat) [1] p ∧
        (runEndF ([1, 0, 1] : List Nat) [1] p : Int)
          = (lcsubstrings ([1, 0, 1] : List Nat) [1]).1)) :=
  lcs_tie_enumeration [1, 0, 1] [1] (by decide)

end CDistance

namespace CDistance

variable {α : Type} [DecidableEq α]

theorem walkF_equal (ld2 : Bool) (mo : EOp × EOp) :
    ∀ (fuel : Nat) (s : List α) (c : Nat), s.length ≤ fuel →
      walkF false ld2 mo fuel s s c = ([], [], c)
  | 0, [], _, _ => rfl
  | _ + 1, [], _, _ => rfl
  | 0, _ :: _, _, h => by simp at h
  | fuel + 1, x :: s, c, h => by
      simp only [walkF]
      rw [if_pos trivial]
      exact walkF_equal ld2 mo fuel s c (by simpa using h)

theorem shapeTotal_nil (mo : EOp × EOp) (c : Nat) (hc : c ≤ 2) :
    shapeTotal mo (([] : List α), ([] : List α), c) = some c := by
  have h : ¬(2 < c) := by omega
  simp [shapeTotal, h]

theorem walkF_sound (ld2 : Bool) (mo : EOp × EOp) :
    ∀ (fuel : Nat) (s1 s2 : List α) (c : Nat),
      lev s1 s2 + c ≤
        lev (walkF false ld2 mo fuel s1 s2 c).1 (walkF false ld2 mo fuel s1 s2 c).2.1
          + (walkF false ld2 mo fuel s1 s2 c).2.2
  | 0, _, _, _ => le_refl _
  | _ + 1, [], _, _ => le_refl _
  | _ + 1, _ :: _, [], _ => le_refl _
  | fuel + 1, x :: s1, y :: s2, c => by
      simp only [walkF]
      by_cases hxy : x = y
      · rw [if_pos hxy]
        subst hxy
        rw [lev_diag]
        exact walkF_sound ld2 mo fuel s1 s2 c
      · rw [if_neg hxy]
        by_cases hbr : 2 < c + 1
        · rw [if_pos hbr]; dsimp only; omega
        · rw [if_neg hbr]
          have hdel := lev_del_le x s1 (y :: s2)
          have hins := lev_ins_le y (x :: s1) s2
          have hrep := lev_rep_le x y s1 s2
          rcases s1 with _ | ⟨x', s1'⟩ <;> rcases s2 with _ | ⟨y', s2'⟩ <;> dsimp only
          · cases hop : opAt2 mo (c + 1) <;> simp only [hop]
            · have := walkF_sound ld2 mo fuel [] [y] (c + 1); omega
            · have := walkF_sound ld2 mo fuel [x] [] (c + 1); omega
            · have := walkF_sound ld2 mo fuel [] [] (c + 1); omega
          · cases hop : opAt2 mo (c + 1) <;> simp only [hop]
            · have := walkF_sound ld2 mo fuel [] (y :: y' :: s2') (c + 1); omega
            · have := walkF_sound ld2 mo fuel [x] (y' :: s2') (c + 1); omega
            · have := walkF_sound ld2 mo fuel [] (y' :: s2') (c + 1); omega
          · cases hop : opAt2 mo (c + 1) <;> simp only [hop]
            · have := walkF_sound ld2 mo fuel (x' :: s1') [y] (c + 1); omega
            · have := walkF_sound ld2 mo fuel (x :: x' :: s1') [] (c + 1); omega
            · have := walkF_sound ld2 mo fuel (x' :: s1') [] (c + 1); omega
          · have hnt : ¬((false = true) ∧ ¬(ld2 = true) ∧ x' = y ∧ x = y') := by simp
            rw [if_neg hnt]
            cases hop : opAt2 mo (c + 1) <;> simp only [hop]
            · have := walkF_sound ld2 mo fuel (x' :: s1') (y :: y' :: s2') (c + 1); omega
            · have := walkF_sound ld2 mo fuel (x :: x' :: s1') (y' :: s2') (c + 1); omega
            · have := walkF_sound ld2 mo fuel (x' :: s1') (y' :: s2') (c + 1); omega

theorem walkF_post (ld2 : Bool) (mo : EOp × EOp) :
    ∀ (fuel : Nat) (s1 s2 : List α) (c : Nat), s1.length + s2.length ≤ fuel →
      (walkF false ld2 mo fuel s1 s2 c).1 = [] ∨ (walkF false ld2 mo fuel s1 s2 c).2.1 = []
        ∨ 2 < (walkF false ld2 mo fuel s1 s2 c).2.2
  | 0, s1, _, _, h => by
      have : s1 = [] := List.length_eq_zero.mp (by omega)
      subst this
      exact Or.inl rfl
  | _ + 1, [], _, _, _ => Or.inl rfl
  | _ + 1, _ :: _, [], _, _ => Or.inr (Or.inl rfl)
  | fuel + 1, x :: s1, y :: s2, c, h => by
      have hlen : s1.length + s2.length + 2 ≤ fuel + 1 := by
        simp only [List.length_cons] at h; omega
      simp only [walkF]
      by_cases hxy : x = y
      · rw [if_pos hxy]
        exact walkF_post ld2 mo fuel s1 s2 c (by omega)
      · rw [if_neg hxy]
        by_cases hbr : 2 < c + 1
        · rw [if_pos hbr]
          exact Or.inr (Or.inr hbr)
        · rw [if_neg hbr]
          rcases s1 with _ | ⟨x', s1'⟩ <;> rcases s2 with _ | ⟨y', s2'⟩ <;> dsimp only
          · cases hop : opAt2 mo (c + 1) <;> simp only [hop]
            · exact walkF_post ld2 mo fuel [] [y] (c + 1) (by simp at hlen ⊢; omega)
            · exact walkF_post ld2 mo fuel [x] [] (c + 1) (by simp at hlen ⊢; omega)
            · exact walkF_post ld2 mo fuel [] [] (c + 1) (by simp)
          · cases hop : opAt2 mo (c + 1) <;> simp only [hop]
            · exact walkF_post ld2 mo fuel [] (y :: y' :: s2') (c + 1)
                (by simp at hlen ⊢; omega)
            · exact walkF_post ld2 mo fuel [x] (y' :: s2') (c + 1)
                (by simp at hlen ⊢; omega)
            · exact walkF_post ld2 mo fuel [] (y' :: s2') (c + 1)
                (by simp at hlen ⊢; omega)
          · cases hop : opAt2 mo (c + 1) <;> simp only [hop]
            · exact walkF_post ld2 mo fuel (x' :: s1') [y] (c + 1)
                (by simp at hlen ⊢; omega)
            · exact walkF_post ld2 mo fuel (x :: x' :: s1') [] (c + 1)
                (by simp at hlen ⊢; omega)
            · exact walkF_post ld2 mo fuel (x' :: s1') [] (c + 1)
                (by simp at hlen ⊢; omega)
          · have hnt : ¬((false = true) ∧ ¬(ld2 = true) ∧ x' = y ∧ x = y') := by simp
            rw [if_neg hnt]
            cases hop : opAt2 mo (c + 1) <;> simp only [hop]
            · exact walkF_post ld2 mo fuel (x' :: s1') (y :: y' :: s2') (c + 1)
                (by simp at hlen ⊢; omega)
            · exact walkF_post ld2 mo fuel (x :: x' :: s1') (y' :: s2') (c + 1)
                (by simp at hlen ⊢; omega)
            · exact walkF_post ld2 mo fuel (x' :: s1') (y' :: s2') (c + 1)
                (by simp at hlen ⊢; omega)

theorem runShape_sound (ld2 : Bool) (mo : EOp × EOp) (a b : List α) (n : Nat)
    (h : runShape false ld2 mo a b = some n) : lev a b ≤ n := by
  have hsound := walkF_sound ld2 mo (a.length + b.length) a b 0
  have hpost := walkF_post ld2 mo (a.length + b.length) a b 0 le_rfl
  unfold runShape at h
  rcases hw : walkF false ld2 mo (a.length + b.length) a b 0 with ⟨r1, r2, c⟩
  rw [hw] at h hsound hpost
  dsimp only at hsound hpost
  simp only [shapeTotal] at h
  by_cases hc : 2 < c
  · rw [if_pos hc] at h; simp at h
  · rw [if_neg hc] at h
    by_cases h1 : r1 = []
    · rw [if_neg (fun hne => hne h1)] at h
      by_cases h2 : r2 = []
      · rw [if_neg (fun hne => hne h2)] at h
        subst h1; subst h2
        simp only [Option.some.injEq] at h
        have h0 : lev ([] : List α) ([] : List α) = 0 := rfl
        omega
      · rw [if_pos h2] at h
        by_cases hle : r2.length ≤ (if insAt mo c then 1 else 0)
        · rw [if_pos hle] at h
          simp only [Option.some.injEq] at h
          subst h1
          have h0 : lev ([] : List α) r2 = r2.length := lev_nil_left r2
          omega
        · rw [if_neg hle] at h; simp at h
    · rw [if_pos h1] at h
      by_cases hle : r1.length ≤
          (if c = 1 then (if mo.2 = EOp.del then 1 else 0) else dOps mo)
      · rw [if_pos hle] at h
        simp only [Option.some.injEq] at h
        have h2 : r2 = [] := by
          rcases hpost with hp | hp | hp
          · exact absurd hp h1
          · exact hp
          · omega
        subst h2
        have h0 : lev r1 ([] : List α) = r1.length := lev_nil_right r1
        omega
      · rw [if_neg hle] at h; simp at h

end CDistance

namespace CDistance

variable {α : Type} [DecidableEq α]

theorem walkF_one (ld2 : Bool) (mo : EOp × EOp) :
    ∀ (fuel : Nat) (s1 s2 : List α) (c : Nat),
      s1.length + s2.length ≤ fuel →
      c ≤ 1 →
      lev s1 s2 ≤ 1 →
      (s1.length = s2.length + 1 → opAt2 mo (c + 1) = EOp.del) →
      (s2.length = s1.length + 1 → opAt2 mo (c + 1) = EOp.ins) →
      (s1.length = s2.length → s1 ≠ s2 → opAt2 mo (c + 1) = EOp.rep) →
      shapeTotal mo (walkF false ld2 mo fuel s1 s2 c) = some (c + lev s1 s2)
  | fuel, [], [], c, _, hc, _, _, _, _ => by
      have h0 : walkF false ld2 mo fuel ([] : List α) [] c = ([], [], c) := by
        cases fuel <;> rfl
      rw [h0, shapeTotal_nil mo c (by omega)]
      simp [lev_nil_left]
  | fuel, [], y :: s2, c, _, hc, hlev, _, hins, _ => by
      have hl := lev_nil_left (y :: s2)
      rw [hl] at hlev
      have hs2 : s2 = [] := by
        simp only [List.length_cons] at hlev
        exact List.length_eq_zero.mp (by omega)
      subst hs2
      have h0 : walkF false ld2 mo fuel ([] : List α) [y] c = ([], [y], c) := by
        cases fuel <;> rfl
      have hop : opAt2 mo (c + 1) = EOp.ins := hins (by simp)
      have hia : insAt mo c = true := by
        interval_cases c
        · simp only [opAt2] at hop
          norm_num at hop
          simp [insAt, hop]
        · simp only [opAt2] at hop
          norm_num at hop
          simp [insAt, hop]
      rw [h0]
      simp only [shapeTotal]
      rw [if_neg (show ¬(2 < c) by omega), if_neg (show ¬(([] : List α) ≠ []) from fun h => h rfl),
        if_pos (show ([y] : List α) ≠ [] by simp), hia]
      simp [lev_nil_left]
  | fuel, x :: s1, [], c, _, hc, hlev, hdel, _, _ => by
      have hl := lev_nil_right (x :: s1)
      rw [hl] at hlev
      have hs1 : s1 = [] := by
        simp only [List.length_cons] at hlev
        exact List.length_eq_zero.mp (by omega)
      subst hs1
      have h0 : walkF false ld2 mo fuel [x] ([] : List α) c = ([x], [], c) := by
        cases fuel <;> rfl
      have hop : opAt2 mo (c + 1) = EOp.del := hdel (by simp)
      rw [h0]
      simp only [shapeTotal]
      rw [if_neg (show ¬(2 < c) by omega), if_pos (show ([x] : List α) ≠ [] by simp)]
      have hcnt : (1 : Nat) ≤ if c = 1 then (if mo.2 = EOp.del then 1 else 0) else dOps mo := by
        interval_cases c
        · simp only [opAt2] at hop
          norm_num at hop
          simp [dOps, hop]
        · simp only [opAt2] at hop
          norm_num at hop
          simp [hop]
      rw [if_pos (by simpa using hcnt)]
      simp [lev_nil_right]
  | 0, x :: s1, y :: s2, c, hfuel, _, _, _, _, _ => by
      simp only [List.length_cons] at hfuel; omega
  | fuel + 1, x :: s1, y :: s2, c, hfuel, hc, hlev, hdel, hins, hrep => by
      simp only [List.length_cons] at hfuel
      simp only [walkF]
      by_cases hxy : x = y
      · rw [if_pos hxy]
        subst hxy
        rw [lev_diag] at hlev ⊢
        exact walkF_one ld2 mo fuel s1 s2 c (by omega) hc hlev
          (fun h => hdel (by simp only [List.length_cons]; omega))
          (fun h => hins (by simp only [List.length_cons]; omega))
          (fun h hne => hrep (by simp only [List.length_cons]; omega)
            (fun hcc => hne (by injection hcc)))
      · rw [if_neg hxy]
        have hne : (x :: s1) ≠ (y :: s2) := by
          intro hcc; injection hcc with h1 _; exact hxy h1
        have hlz : lev (x :: s1) (y :: s2) ≠ 0 :=
          fun hz => hne ((lev_eq_zero_iff (x :: s1) (y :: s2)).mp hz)
        have hlev1 : lev (x :: s1) (y :: s2) = 1 := by omega
        rw [if_neg (show ¬(2 < c + 1) by omega), hlev1]
        have hm := hlev1
        rw [lev_cons_cons, if_neg hxy] at hm
        have hfe : ∀ (u : List α), u.length ≤ fuel →
            shapeTotal mo (walkF false ld2 mo fuel u u (c + 1)) = some (c + 1) := by
          intro u hu
          rw [walkF_equal ld2 mo fuel u (c + 1) hu, shapeTotal_nil mo (c + 1) (by omega)]
        rcases min3_cases (lev s1 (y :: s2) + 1) (lev (x :: s1) s2 + 1)
          (lev s1 s2 + 1) with hmc | hmc | hmc <;> rw [hmc] at hm
        · -- first op is a deletion: s1 = y :: s2
          have hs1 : s1 = y :: s2 :=
            (lev_eq_zero_iff s1 (y :: s2)).mp (by omega)
          subst hs1
          have hop : opAt2 mo (c + 1) = EOp.del := by
            apply hdel; simp only [List.length_cons]
          rcases s2 with _ | ⟨y2, s2'⟩ <;> dsimp only
          · simp only [hop]
            exact hfe [y] (by simp only [List.length_cons, List.length_nil] at hfuel ⊢; omega)
          · rw [if_neg (show ¬((false = true) ∧ ¬(ld2 = true) ∧ y = y ∧ x = y2) by simp)]
            simp only [hop]
            exact hfe (y :: y2 :: s2') (by simp only [List.length_cons] at hfuel ⊢; omega)
        · -- first op is an insertion: x :: s1 = s2
          have hs2 : x :: s1 = s2 :=
            (lev_eq_zero_iff (x :: s1) s2).mp (by omega)
          have hop : opAt2 mo (c + 1) = EOp.ins := by
            apply hins; rw [← hs2]; simp only [List.length_cons]
          rcases s1 with _ | ⟨x1, s1'⟩ <;> rcases hs2 <;> dsimp only
          · simp only [hop]
            exact hfe [x] (by simp only [List.length_cons, List.length_nil] at hfuel ⊢; omega)
          · rw [if_neg (show ¬((false = true) ∧ ¬(ld2 = true) ∧ x1 = y ∧ x = x) by simp)]
            simp only [hop]
            exact hfe (x :: x1 :: s1') (by simp only [List.length_cons] at hfuel ⊢; omega)
        · -- first op is a replacement: s1 = s2
          have hs : s1 = s2 :=
            (lev_eq_zero_iff s1 s2).mp (by omega)
          subst hs
          have hop : opAt2 mo (c + 1) = EOp.rep := by
            apply hrep
            · simp only [List.length_cons]
            · exact hne
          rcases s1 with _ | ⟨x1, s1'⟩ <;> dsimp only
          · simp only [hop]
            exact hfe [] (by omega)
          · rw [if_neg (show ¬((false = true) ∧ ¬(ld2 = true) ∧ x1 = y ∧ x = x1) by simp)]
            simp only [hop]
            exact hfe (x1 :: s1') (by simp only [List.length_cons] at hfuel ⊢; omega)

end CDistance

namespace CDistance

variable {α : Type} [DecidableEq α]

theorem opDelta_eq_del (o : EOp) : opDelta o = 1 ↔ o = EOp.del := by
  cases o <;> simp [opDelta]

theorem opDelta_eq_ins (o : EOp) : opDelta o = -1 ↔ o = EOp.ins := by
  cases o <;> simp [opDelta]

theorem opDelta_eq_rep (o : EOp) : opDelta o = 0 ↔ o = EOp.rep := by
  cases o <;> simp [opDelta]

theorem opDelta_range (o : EOp) : -1 ≤ opDelta o ∧ opDelta o ≤ 1 := by
  cases o <;> simp [opDelta]

theorem walkF_one_auto (ld2 : Bool) (mo : EOp × EOp) (fuel : Nat) (p1 p2 : List α)
    (hfuel : p1.length + p2.length ≤ fuel)
    (hlev : lev p1 p2 = 1)
    (hS2 : (p1.length : Int) - (p2.length : Int) = opDelta mo.2) :
    shapeTotal mo (walkF false ld2 mo fuel p1 p2 1) = some 2 := by
  have hop2 : opAt2 mo (1 + 1) = mo.2 := by simp [opAt2]
  have hres := walkF_one ld2 mo fuel p1 p2 1 hfuel le_rfl (by omega)
    (fun h => by
      have hd : opDelta mo.2 = 1 := by omega
      rw [hop2]; exact (opDelta_eq_del mo.2).mp hd)
    (fun h => by
      have hd : opDelta mo.2 = -1 := by omega
      rw [hop2]; exact (opDelta_eq_ins mo.2).mp hd)
    (fun h _ => by
      have hd : opDelta mo.2 = 0 := by omega
      rw [hop2]; exact (opDelta_eq_rep mo.2).mp hd)
  rw [hlev] at hres
  exact hres

theorem walkF_two (ld2 : Bool) (mo : EOp × EOp) :
    ∀ (fuel : Nat) (s1 s2 : List α),
      s1.length + s2.length ≤ fuel →
      lev s1 s2 = 2 →
      firstOp mo.1 s1 s2 →
      (s1.length : Int) - (s2.length : Int) = opDelta mo.1 + opDelta mo.2 →
      0 ≤ (s1.length : Int) - (s2.length : Int) →
      ∃ n, n ≤ 2 ∧ shapeTotal mo (walkF false ld2 mo fuel s1 s2 0) = some n
  | fuel, [], s2, _, hlev, _, _, hSpos => by
      have hs2 : s2 = [] := by
        simp only [List.length_nil] at hSpos
        exact List.length_eq_zero.mp (by omega)
      subst hs2
      rw [lev_nil_left] at hlev
      simp at hlev
  | fuel, x :: s1, [], _, hlev, _, hSg, _ => by
      rw [lev_nil_right] at hlev
      have hs1 : s1.length = 1 := by simp only [List.length_cons] at hlev; omega
      obtain ⟨x2, rfl⟩ := List.length_eq_one.mp hs1
      have hd1 := opDelta_range mo.1
      have hd2 := opDelta_range mo.2
      have hSd : opDelta mo.1 + opDelta mo.2 = 2 := by
        simp only [List.length_cons, List.length_nil] at hSg
        omega
      have hm1 : mo.1 = EOp.del := (opDelta_eq_del mo.1).mp (by omega)
      have hm2 : mo.2 = EOp.del := (opDelta_eq_del mo.2).mp (by omega)
      have h0 : walkF false ld2 mo fuel [x, x2] ([] : List α) 0 = ([x, x2], [], 0) := by
        cases fuel <;> rfl
      refine ⟨2, le_rfl, ?_⟩
      rw [h0]
      simp only [shapeTotal]
      rw [if_neg (show ¬(2 < 0) by omega),
        if_pos (show ([x, x2] : List α) ≠ [] by simp)]
      have hcnt : (if (0 : Nat) = 1 then (if mo.2 = EOp.del then 1 else 0) else dOps mo) = 2 := by
        norm_num
        simp [dOps, hm1, hm2]
      rw [hcnt]
      norm_num
  | 0, x :: s1, y :: s2, hfuel, _, _, _, _ => by
      simp only [List.length_cons] at hfuel; omega
  | fuel + 1, x :: s1, y :: s2, hfuel, hlev, hfo, hSg, hSpos => by
      simp only [List.length_cons] at hfuel
      have hSd : (s1.length : Int) - (s2.length : Int)
          = ((x :: s1).length : Int) - ((y :: s2).length : Int) := by
        simp only [List.length_cons]
        push_cast
        omega
      simp only [walkF]
      by_cases hxy : x = y
      · rw [if_pos hxy]
        simp only [firstOp] at hfo
        rw [if_pos hxy] at hfo
        subst hxy
        rw [lev_diag] at hlev
        exact walkF_two ld2 mo fuel s1 s2 (by omega) hlev hfo
          (by rw [hSd]; exact hSg) (by rw [hSd]; exact hSpos)
      · rw [if_neg hxy]
        simp only [firstOp] at hfo
        rw [if_neg hxy] at hfo
        rw [if_neg (show ¬(2 < 0 + 1) by omega)]
        have hop1 : opAt2 mo (0 + 1) = mo.1 := by simp [opAt2]
        cases hm1 : mo.1 <;> simp only [hm1] at hfo
        · -- first op is a deletion
          rw [hlev] at hfo
          have hl1 : lev s1 (y :: s2) = 1 := by omega
          have hg1 : (s1.length : Int) - ((y :: s2).length : Int) = opDelta mo.2 := by
            have : opDelta mo.1 = 1 := by rw [hm1]; rfl
            simp only [List.length_cons] at hSg ⊢
            push_cast at hSg ⊢
            omega
          have hrun : shapeTotal mo (walkF false ld2 mo fuel s1 (y :: s2) 1) = some 2 :=
            walkF_one_auto ld2 mo fuel s1 (y :: s2) (by simp only [List.length_cons]; omega)
              hl1 hg1
          refine ⟨2, le_rfl, ?_⟩
          rcases s1 with _ | ⟨x', s1'⟩ <;> rcases s2 with _ | ⟨y', s2'⟩ <;> dsimp only
          · rw [hop1, hm1]; dsimp only; simpa using hrun
          · rw [hop1, hm1]; dsimp only; simpa using hrun
          · rw [hop1, hm1]; dsimp only; simpa using hrun
          · rw [if_neg (show ¬((false = true) ∧ ¬(ld2 = true) ∧ x' = y ∧ x = y') by simp)]
            rw [hop1, hm1]; dsimp only; simpa using hrun
        · -- first op is an insertion
          rw [hlev] at hfo
          have hl1 : lev (x :: s1) s2 = 1 := by omega
          have hg1 : ((x :: s1).length : Int) - (s2.length : Int) = opDelta mo.2 := by
            have : opDelta mo.1 = -1 := by rw [hm1]; rfl
            simp only [List.length_cons] at hSg ⊢
            push_cast at hSg ⊢
            omega
          have hrun : shapeTotal mo (walkF false ld2 mo fuel (x :: s1) s2 1) = some 2 :=
            walkF_one_auto ld2 mo fuel (x :: s1) s2 (by simp only [List.length_cons]; omega)
              hl1 hg1
          refine ⟨2, le_rfl, ?_⟩
          rcases s1 with _ | ⟨x', s1'⟩ <;> rcases s2 with _ | ⟨y', s2'⟩ <;> dsimp only
          · rw [hop1, hm1]; dsimp only; simpa using hrun
          · rw [hop1, hm1]; dsimp only; simpa using hrun
          · rw [hop1, hm1]; dsimp only; simpa using hrun
          · rw [if_neg (show ¬((false = true) ∧ ¬(ld2 = true) ∧ x' = y ∧ x = y') by simp)]
            rw [hop1, hm1]; dsimp only; simpa using hrun
        · -- first op is a replacement
          rw [hlev] at hfo
          have hl1 : lev s1 s2 = 1 := by omega
          have hg1 : (s1.length : Int) - (s2.length : Int) = opDelta mo.2 := by
            have : opDelta mo.1 = 0 := by rw [hm1]; rfl
            simp only [List.length_cons] at hSg
            push_cast at hSg ⊢
            omega
          have hrun : shapeTotal mo (walkF false ld2 mo fuel s1 s2 1) = some 2 :=
            walkF_one_auto ld2 mo fuel s1 s2 (by omega) hl1 hg1
          refine ⟨2, le_rfl, ?_⟩
          rcases s1 with _ | ⟨x', s1'⟩ <;> rcases s2 with _ | ⟨y', s2'⟩ <;> dsimp only
          · rw [hop1, hm1]; dsimp only; simpa using hrun
          · rw [hop1, hm1]; dsimp only; simpa using hrun
          · rw [hop1, hm1]; dsimp only; simpa using hrun
          · rw [if_neg (show ¬((false = true) ∧ ¬(ld2 = true) ∧ x' = y ∧ x = y') by simp)]
            rw [hop1, hm1]; dsimp only; simpa using hrun

end CDistance

namespace CDistance

variable {α : Type} [DecidableEq α]

theorem firstOp_of_lev_one :
    ∀ (s1 s2 : List α), lev s1 s2 = 1 →
      (s1.length = s2.length + 1 → firstOp EOp.del s1 s2) ∧
      (s2.length = s1.length + 1 → firstOp EOp.ins s1 s2) ∧
      (s1.length = s2.length → firstOp EOp.rep s1 s2)
  | [], [], h => by rw [lev_nil_left] at h; simp at h
  | [], y :: s2, _ => by
      refine ⟨?_, fun _ => rfl, ?_⟩
      · intro hlen; simp only [List.length_nil, List.length_cons] at hlen; omega
      · intro hlen; simp only [List.length_nil, List.length_cons] at hlen; omega
  | x :: s1, [], _ => by
      refine ⟨fun _ => rfl, ?_, ?_⟩
      · intro hlen; simp only [List.length_nil, List.length_cons] at hlen; omega
      · intro hlen; simp only [List.length_nil, List.length_cons] at hlen; omega
  | x :: s1, y :: s2, h => by
      by_cases hxy : x = y
      · subst hxy
        rw [lev_diag] at h
        obtain ⟨ih1, ih2, ih3⟩ := firstOp_of_lev_one s1 s2 h
        refine ⟨?_, ?_, ?_⟩
        · intro hlen
          simp only [firstOp]
          rw [if_pos trivial]
          exact ih1 (by simp only [List.length_cons] at hlen; omega)
        · intro hlen
          simp only [firstOp]
          rw [if_pos trivial]
          exact ih2 (by simp only [List.length_cons] at hlen; omega)
        · intro hlen
          simp only [firstOp]
          rw [if_pos trivial]
          exact ih3 (by simp only [List.length_cons] at hlen; omega)
      · have h0 := h
        rw [lev_cons_cons, if_neg hxy] at h
        refine ⟨?_, ?_, ?_⟩
        · intro hlen
          simp only [List.length_cons] at hlen
          simp only [firstOp]
          rw [if_neg hxy]
          rw [h0]
          rcases min3_cases (lev s1 (y :: s2) + 1) (lev (x :: s1) s2 + 1)
            (lev s1 s2 + 1) with hmc | hmc | hmc <;> rw [hmc] at h
          · omega
          · have he := (lev_eq_zero_iff (x :: s1) s2).mp (by omega)
            have hc := congrArg List.length he
            simp only [List.length_cons] at hc
            omega
          · have he := (lev_eq_zero_iff s1 s2).mp (by omega)
            have hc := congrArg List.length he
            omega
        · intro hlen
          simp only [List.length_cons] at hlen
          simp only [firstOp]
          rw [if_neg hxy]
          rw [h0]
          rcases min3_cases (lev s1 (y :: s2) + 1) (lev (x :: s1) s2 + 1)
            (lev s1 s2 + 1) with hmc | hmc | hmc <;> rw [hmc] at h
          · have he := (lev_eq_zero_iff s1 (y :: s2)).mp (by omega)
            have hc := congrArg List.length he
            simp only [List.length_cons] at hc
            omega
          · omega
          · have he := (lev_eq_zero_iff s1 s2).mp (by omega)
            have hc := congrArg List.length he
            omega
        · intro hlen
          simp only [List.length_cons] at hlen
          simp only [firstOp]
          rw [if_neg hxy]
          rw [h0]
          rcases min3_cases (lev s1 (y :: s2) + 1) (lev (x :: s1) s2 + 1)
            (lev s1 s2 + 1) with hmc | hmc | hmc <;> rw [hmc] at h
          · have he := (lev_eq_zero_iff s1 (y :: s2)).mp (by omega)
            have hc := congrArg List.length he
            simp only [List.length_cons] at hc
            omega
          · have he := (lev_eq_zero_iff (x :: s1) s2).mp (by omega)
            have hc := congrArg List.length he
            simp only [List.length_cons] at hc
            omega
          · omega

theorem firstOp_of_lev_two :
    ∀ (s1 s2 : List α), lev s1 s2 = 2 →
      (s1.length = s2.length + 2 → firstOp EOp.del s1 s2) ∧
      (s1.length = s2.length + 1 → firstOp EOp.del s1 s2 ∨ firstOp EOp.rep s1 s2) ∧
      (s1.length = s2.length →
        firstOp EOp.del s1 s2 ∨ firstOp EOp.ins s1 s2 ∨ firstOp EOp.rep s1 s2)
  | [], [], h => by rw [lev_nil_left] at h; simp at h
  | [], y :: s2, _ => by
      refine ⟨?_, ?_, ?_⟩ <;>
        (intro hlen; simp only [List.length_nil, List.length_cons] at hlen; omega)
  | x :: s1, [], _ =>
      ⟨fun _ => rfl, fun _ => Or.inl rfl, fun hlen => by
        simp only [List.length_nil, List.length_cons] at hlen; omega⟩
  | x :: s1, y :: s2, h => by
      by_cases hxy : x = y
      · subst hxy
        rw [lev_diag] at h
        obtain ⟨ih1, ih2, ih3⟩ := firstOp_of_lev_two s1 s2 h
        have hstep : ∀ o : EOp, firstOp o s1 s2 → firstOp o (x :: s1) (x :: s2) := by
          intro o hf
          simp only [firstOp]
          rw [if_pos trivial]
          exact hf
        refine ⟨?_, ?_, ?_⟩
        · intro hlen
          exact hstep EOp.del (ih1 (by simp only [List.length_cons] at hlen; omega))
        · intro hlen
          rcases ih2 (by simp only [List.length_cons] at hlen; omega) with hf | hf
          · exact Or.inl (hstep EOp.del hf)
          · exact Or.inr (hstep EOp.rep hf)
        · intro hlen
          rcases ih3 (by simp only [List.length_cons] at hlen; omega) with hf | hf | hf
          · exact Or.inl (hstep EOp.del hf)
          · exact Or.inr (Or.inl (hstep EOp.ins hf))
          · exact Or.inr (Or.inr (hstep EOp.rep hf))
      · have h0 := h
        rw [lev_cons_cons, if_neg hxy] at h
        have hfd : lev s1 (y :: s2) + 1 = 2 → firstOp EOp.del (x :: s1) (y :: s2) := by
          intro hv
          simp only [firstOp]
          rw [if_neg hxy]
          omega
        have hfi : lev (x :: s1) s2 + 1 = 2 → firstOp EOp.ins (x :: s1) (y :: s2) := by
          intro hv
          simp only [firstOp]
          rw [if_neg hxy]
          omega
        have hfr : lev s1 s2 + 1 = 2 → firstOp EOp.rep (x :: s1) (y :: s2) := by
          intro hv
          simp only [firstOp]
          rw [if_neg hxy]
          omega
        have hbB := lev_len_le (x :: s1) s2
        have hbC := lev_len_le s1 s2
        refine ⟨?_, ?_, ?_⟩
        · intro hlen
          simp only [List.length_cons] at hlen hbB
          rcases min3_cases (lev s1 (y :: s2) + 1) (lev (x :: s1) s2 + 1)
            (lev s1 s2 + 1) with hmc | hmc | hmc <;> rw [hmc] at h
          · exact hfd h
          · omega
          · omega
        · intro hlen
          simp only [List.length_cons] at hlen hbB
          rcases min3_cases (lev s1 (y :: s2) + 1) (lev (x :: s1) s2 + 1)
            (lev s1 s2 + 1) with hmc | hmc | hmc <;> rw [hmc] at h
          · exact Or.inl (hfd h)
          · omega
          · exact Or.inr (hfr h)
        · intro hlen
          simp only [List.length_cons] at hlen
          rcases min3_cases (lev s1 (y :: s2) + 1) (lev (x :: s1) s2 + 1)
            (lev s1 s2 + 1) with hmc | hmc | hmc <;> rw [hmc] at h
          · exact Or.inl (hfd h)
          · exact Or.inr (Or.inl (hfi h))
          · exact Or.inr (Or.inr (hfr h))

end CDistance

namespace CDistance

variable {α : Type} [DecidableEq α]

theorem foldShapes_aux_ge (t ld2 : Bool) (a b : List α) (L : Nat) :
    ∀ (mos : List (EOp × EOp)) (r : Nat), L ≤ r →
      (∀ mo ∈ mos, ∀ n, runShape t ld2 mo a b = some n → L ≤ n) →
      L ≤ mos.foldl
        (fun r mo =>
          match runShape t ld2 mo a b with
          | some c => if c < r then c else r
          | none => r) r
  | [], _, hr, _ => hr
  | mo :: mos, r, hr, hall => by
      rw [List.foldl_cons]
      cases h : runShape t ld2 mo a b with
      | none =>
        simp only [h]
        exact foldShapes_aux_ge t ld2 a b L mos r hr
          (fun m hm n hn => hall m (List.mem_cons_of_mem mo hm) n hn)
      | some c =>
        simp only [h]
        have hLc : L ≤ c := hall mo (List.mem_cons_self mo mos) c h
        by_cases hc : c < r
        · rw [if_pos hc]
          exact foldShapes_aux_ge t ld2 a b L mos c hLc
            (fun m hm n hn => hall m (List.mem_cons_of_mem mo hm) n hn)
        · rw [if_neg hc]
          exact foldShapes_aux_ge t ld2 a b L mos r hr
            (fun m hm n hn => hall m (List.mem_cons_of_mem mo hm) n hn)

theorem foldShapes_aux_le_mem (t ld2 : Bool) (a b : List α) :
    ∀ (mos : List (EOp × EOp)) (r : Nat) (mo : EOp × EOp) (n : Nat),
      mo ∈ mos → runShape t ld2 mo a b = some n →
      mos.foldl
        (fun r mo =>
          match runShape t ld2 mo a b with
          | some c => if c < r then c else r
          | none => r) r ≤ n
  | mo' :: mos, r, mo, n, hmem, hrun => by
      rw [List.foldl_cons]
      rcases List.mem_cons.mp hmem with rfl | hmem'
      · simp only [hrun]
        have haux := foldShapes_aux_le t ld2 a b mos (if n < r then n else r)
        by_cases hc : n < r
        · rw [if_pos hc] at haux ⊢
          exact haux
        · rw [if_neg hc] at haux ⊢
          omega
      · cases h : runShape t ld2 mo' a b with
        | none =>
          simp only [h]
          exact foldShapes_aux_le_mem t ld2 a b mos r mo n hmem' hrun
        | some c =>
          simp only [h]
          exact foldShapes_aux_le_mem t ld2 a b mos _ mo n hmem' hrun

theorem fastcomp_complete (ld2 : Bool) (a b : List α) (hab : b.length ≤ a.length)
    (hlev : lev a b ≤ 2) :
    ∃ mo ∈ shapesFor (a.length - b.length),
      runShape false ld2 mo a b = some (lev a b) := by
  have hgap : a.length - b.length ≤ lev a b := by
    have := lev_len_le a b; omega
  have hd : lev a b = 0 ∨ lev a b = 1 ∨ lev a b = 2 := by omega
  rcases hd with h0 | h1 | h2
  · have hequal : a = b := (lev_eq_zero_iff a b).mp h0
    subst hequal
    rw [Nat.sub_self]
    refine ⟨(EOp.rep, EOp.rep), by simp [shapesFor], ?_⟩
    unfold runShape
    rw [walkF_equal ld2 (EOp.rep, EOp.rep) (a.length + a.length) a 0 (by omega),
      shapeTotal_nil _ 0 (by omega), h0]
  · have hg : a.length = b.length ∨ a.length = b.length + 1 := by
      have := lev_len_le₂ a b; omega
    rcases hg with hg | hg
    · have hld0 : a.length - b.length = 0 := by omega
      rw [hld0]
      refine ⟨(EOp.rep, EOp.rep), by simp [shapesFor], ?_⟩
      unfold runShape
      have hres := walkF_one ld2 (EOp.rep, EOp.rep) (a.length + b.length) a b 0 le_rfl
        (by omega) (by omega)
        (fun h => absurd h (by omega))
        (fun h => absurd h (by omega))
        (fun _ _ => by simp [opAt2])
      rw [h1] at hres ⊢
      simpa using hres
    · have hld1 : a.length - b.length = 1 := by omega
      rw [hld1]
      refine ⟨(EOp.del, EOp.rep), by simp [shapesFor], ?_⟩
      unfold runShape
      have hres := walkF_one ld2 (EOp.del, EOp.rep) (a.length + b.length) a b 0 le_rfl
        (by omega) (by omega)
        (fun _ => by simp [opAt2])
        (fun h => absurd h (by omega))
        (fun h _ => absurd h (by omega))
      rw [h1] at hres ⊢
      simpa using hres
  · obtain ⟨e1, e2, e3⟩ := firstOp_of_lev_two a b h2
    have hg : a.length = b.length ∨ a.length = b.length + 1 ∨ a.length = b.length + 2 := by
      omega
    rcases hg with hg | hg | hg
    · have hld0 : a.length - b.length = 0 := by omega
      rw [hld0]
      rcases e3 hg with hf | hf | hf
      · refine ⟨(EOp.del, EOp.ins), by simp [shapesFor], ?_⟩
        obtain ⟨n, hn, hrun⟩ := walkF_two ld2 (EOp.del, EOp.ins) (a.length + b.length) a b
          le_rfl h2 hf (by simp [opDelta]; omega) (by omega)
        have hs := runShape_sound ld2 (EOp.del, EOp.ins) a b n hrun
        rw [h2]
        have hn2 : n = 2 := by omega
        rw [← hn2]
        exact hrun
      · refine ⟨(EOp.ins, EOp.del), by simp [shapesFor], ?_⟩
        obtain ⟨n, hn, hrun⟩ := walkF_two ld2 (EOp.ins, EOp.del) (a.length + b.length) a b
          le_rfl h2 hf (by simp [opDelta]; omega) (by omega)
        have hs := runShape_sound ld2 (EOp.ins, EOp.del) a b n hrun
        rw [h2]
        have hn2 : n = 2 := by omega
        rw [← hn2]
        exact hrun
      · refine ⟨(EOp.rep, EOp.rep), by simp [shapesFor], ?_⟩
        obtain ⟨n, hn, hrun⟩ := walkF_two ld2 (EOp.rep, EOp.rep) (a.length + b.length) a b
          le_rfl h2 hf (by simp [opDelta]; omega) (by omega)
        have hs := runShape_sound ld2 (EOp.rep, EOp.rep) a b n hrun
        rw [h2]
        have hn2 : n = 2 := by omega
        rw [← hn2]
        exact hrun
    · have hld1 : a.length - b.length = 1 := by omega
      rw [hld1]
      rcases e2 hg with hf | hf
      · refine ⟨(EOp.del, EOp.rep), by simp [shapesFor], ?_⟩
        obtain ⟨n, hn, hrun⟩ := walkF_two ld2 (EOp.del, EOp.rep) (a.length + b.length) a b
          le_rfl h2 hf (by simp [opDelta]; omega) (by omega)
        have hs := runShape_sound ld2 (EOp.del, EOp.rep) a b n hrun
        rw [h2]
        have hn2 : n = 2 := by omega
        rw [← hn2]
        exact hrun
      · refine ⟨(EOp.rep, EOp.del), by simp [shapesFor], ?_⟩
        obtain ⟨n, hn, hrun⟩ := walkF_two ld2 (EOp.rep, EOp.del) (a.length + b.length) a b
          le_rfl h2 hf (by simp [opDelta]; omega) (by omega)
        have hs := runShape_sound ld2 (EOp.rep, EOp.del) a b n hrun
        rw [h2]
        have hn2 : n = 2 := by omega
        rw [← hn2]
        exact hrun
    · have hld2 : a.length - b.length = 2 := by omega
      rw [hld2]
      refine ⟨(EOp.del, EOp.del), by simp [shapesFor], ?_⟩
      obtain ⟨n, hn, hrun⟩ := walkF_two ld2 (EOp.del, EOp.del) (a.length + b.length) a b
        le_rfl h2 (e1 hg) (by simp [opDelta]; omega) (by omega)
      have hs := runShape_sound ld2 (EOp.del, EOp.del) a b n hrun
      rw [h2]
      have hn2 : n = 2 := by omega
      rw [← hn2]
      exact hrun

theorem foldShapes_spec (a b : List α) (hab : b.length ≤ a.length)
    (hld : a.length - b.length ≤ 2) :
    foldShapes false (decide (a.length - b.length = 2)) a b
        (shapesFor (a.length - b.length))
      = if lev a b ≤ 2 then lev a b else 3 := by
  by_cases hlev : lev a b ≤ 2
  · rw [if_pos hlev]
    obtain ⟨mo, hmem, hrun⟩ := fastcomp_complete (decide (a.length - b.length = 2)) a b hab hlev
    apply le_antisymm
    · unfold foldShapes
      exact foldShapes_aux_le_mem false _ a b _ 3 mo (lev a b) hmem hrun
    · unfold foldShapes
      exact foldShapes_aux_ge false _ a b (lev a b) _ 3 (by omega)
        (fun m _ n hn => runShape_sound _ m a b n hn)
  · rw [if_neg hlev]
    apply le_antisymm
    · exact foldShapes_le false _ a b _
    · unfold foldShapes
      exact foldShapes_aux_ge false _ a b 3 _ 3 le_rfl
        (fun m _ n hn => by have := runShape_sound _ m a b n hn; omega)

theorem fastcomp_engine_eq (a b : List α) (hab : b.length ≤ a.length) :
    (if 2 < a.length - b.length then (-1 : Int)
     else if foldShapes false (decide (a.length - b.length = 2)) a b
         (shapesFor (a.length - b.length)) = 3 then -1
     else (foldShapes false (decide (a.length - b.length = 2)) a b
         (shapesFor (a.length - b.length)) : Int))
      = if lev a b ≤ 2 then (lev a b : Int) else -1 := by
  by_cases hld : 2 < a.length - b.length
  · rw [if_pos hld]
    have hgt : ¬(lev a b ≤ 2) := by have := lev_len_le a b; omega
    rw [if_neg hgt]
  · rw [if_neg hld, foldShapes_spec a b hab (by omega)]
    by_cases hlev : lev a b ≤ 2
    · rw [if_pos hlev, if_pos hlev, if_neg (by omega)]
    · rw [if_neg hlev, if_neg hlev, if_pos rfl]

end CDistance

namespace CDistance

variable {α : Type} [DecidableEq α]

/-- C2: bounded comparator agreement with transpositions disabled. For every
pair of sequences, `fastcomp` returns exactly the Levenshtein distance
whenever that distance is 0, 1 or 2, and the "greater" sentinel -1 otherwise;
in particular, when the absolute length difference alone exceeds 2 the
sentinel is returned (the engine's length test short-circuits in that case,
and the full shape catalogue decides all others). -/
theorem fastcomp_bounded_agreement (s1 s2 : List α) :
    (fastcomp false s1 s2 = if lev s1 s2 ≤ 2 then (lev s1 s2 : Int) else -1) ∧
    (2 < (if s1.length < s2.length then s2 else s1).length
        - (if s1.length < s2.length then s1 else s2).length →
      fastcomp false s1 s2 = -1) := by
  have hab : (if s1.length < s2.length then s1 else s2).length
      ≤ (if s1.length < s2.length then s2 else s1).length := by
    by_cases hsw : s1.length < s2.length <;> simp [hsw] <;> omega
  have hlv : lev s1 s2
      = lev (if s1.length < s2.length then s2 else s1)
          (if s1.length < s2.length then s1 else s2) := by
    by_cases hsw : s1.length < s2.length <;> simp [hsw]
    exact lev_comm s1 s2
  have heng := fastcomp_engine_eq (if s1.length < s2.length then s2 else s1)
    (if s1.length < s2.length then s1 else s2) hab
  have h1 : fastcomp false s1 s2 = if lev s1 s2 ≤ 2 then (lev s1 s2 : Int) else -1 := by
    rw [hlv]
    exact heng
  refine ⟨h1, fun hgap => ?_⟩
  have hgt : ¬(lev s1 s2 ≤ 2) := by
    have hle := lev_len_le (if s1.length < s2.length then s2 else s1)
      (if s1.length < s2.length then s1 else s2)
    rw [hlv]
    omega
  rw [h1, if_neg hgt]

/-- Witness for C2 at seq1 = [1, 2], seq2 = [9, 1]: the distance is 2 and
fastcomp finds it through the "id" model. -/
theorem fastcomp_bounded_agreement_witness :
    (fastcomp false ([1, 2] : List Nat) [9, 1]
      = if lev ([1, 2] : List Nat) [9, 1] ≤ 2
        then (lev ([1, 2] : List Nat) [9, 1] : Int) else -1) ∧
    (2 < (if ([1, 2] : List Nat).length < ([9, 1] : List Nat).length
          then ([9, 1] : List Nat) else [1, 2]).length
        - (if ([1, 2] : List Nat).length < ([9, 1] : List Nat).length
          then ([1, 2] : List Nat) else [9, 1]).length →
      fastcomp false ([1, 2] : List Nat) [9, 1] = -1) :=
  fastcomp_bounded_agreement [1, 2] [9, 1]

end CDistance
